import Mathlib

/-!
# StateMachine.h : a shallow embedding

The class template `StateMachine<T>` of `src/include/StateMachine.h` is
embedded as state passing over an explicit world `W`.

* `T` is the enumeration of state identifiers, `W` is everything the caller's
  closures can read and write.
* A `std::function` object is an `Option`: `none` is the empty function
  object, whose invocation throws `std::bad_function_call`; `some f` is a
  callable that returns normally.  A callable receives the value
  `GetCurrentState()` would return at the moment of the call (a closure may
  hold a reference to the machine and use this const query) and the world; it
  cannot mutate the machine.
* `std::unordered_map<T, StateContext>` is a function `T → Option StateContext`;
  `operator[]` is `index` (insertion of a default descriptor when the key is
  absent) followed by `deref`.
* `Update` returns a `Result`: the machine and the world when the call is
  left, the events of the call in order, and whether the call was left by an
  exception.
* Closures that call `Update()` on the machine from inside a callback or a
  condition are embedded separately (`ReStateMachine`, `ReStateMachine.Update`);
  the two claims that fail for such closures are refuted there.
-/

namespace FSM

/-- Callable of type `std::function<void()>`; `none` is the empty function object. -/
abbrev Action (T W : Type) := Option (T → W → W)

/-- Callable of type `std::function<bool()>`; `none` is the empty function object. -/
abbrev Condition (T W : Type) := Option (T → W → Bool × W)

/-- Struct `TransitionContext` (lines 7-10); `to_` is the member `to`. -/
structure TransitionContext (T W : Type) where
  to_ : T
  condition : Condition T W

/-- Struct `StateContext` (lines 12-18); the defaults are the lambdas `[] {}` and the
empty vector. -/
structure StateContext (T W : Type) where
  onStart : Action T W := some (fun _ w => w)
  onUpdate : Action T W := some (fun _ w => w)
  onStop : Action T W := some (fun _ w => w)
  transitions : List (TransitionContext T W) := []

/-- The data members of `StateMachine<T>` (lines 40-41). -/
structure StateMachine (T W : Type) where
  mStateContexts : T → Option (StateContext T W)
  mCurrentState : T

/-- One observable step of a call of `Update`.  The state carried by an event is the
value of `mCurrentState` at the moment the callable is invoked (every callable is
reached through `mStateContexts[mCurrentState]`); `index` is the position of the
transition in the vector being scanned. -/
inductive Event (T : Type) where
  | condition (state : T) (index : Nat) (result : Bool)
  | onStart (state : T)
  | onUpdate (state : T)
  | onStop (state : T)
  deriving DecidableEq, Repr

/-- The event is the invocation of one of the three callbacks of a descriptor. -/
def Event.isCallback {T : Type} : Event T → Bool
  | .condition _ _ _ => false
  | _ => true

/-- The event is the evaluation of a transition condition. -/
def Event.isCondition {T : Type} : Event T → Bool
  | .condition _ _ _ => true
  | _ => false

/-- What a call of `Update` leaves behind: the machine, the world, the events of the
call in order, and `threw = true` when `std::bad_function_call` left the call. -/
structure Result (T W : Type) where
  machine : StateMachine T W
  world : W
  trace : List (Event T)
  threw : Bool

/-- The result `r` of the rest of a call, after the event `e` has happened. -/
def Result.logged {T W : Type} (e : Event T) (r : Result T W) : Result T W :=
  { r with trace := e :: r.trace }

section Code

variable {T W : Type} [DecidableEq T]

/-- The mapping after `operator[]` was applied at key `k`: a default-constructed
descriptor is inserted when `k` is absent. -/
def index (mp : T → Option (StateContext T W)) (k : T) : T → Option (StateContext T W) :=
  match mp k with
  | some _ => mp
  | none => fun j => if j = k then some {} else mp j

/-- The descriptor that the reference returned by `operator[]` at key `k` denotes. -/
def deref (mp : T → Option (StateContext T W)) (k : T) : StateContext T W :=
  (mp k).getD {}

/-- Assignment of `c` through the reference returned by `operator[]` at key `k`. -/
def store (mp : T → Option (StateContext T W)) (k : T) (c : StateContext T W) :
    T → Option (StateContext T W) :=
  fun j => if j = k then some c else mp j

/-- Constructor `StateMachine(T startState)` (line 50). -/
def StateMachine.ctor (startState : T) : StateMachine T W :=
  { mStateContexts := fun _ => none, mCurrentState := startState }

/-- Member `GetCurrentState` (line 37). -/
def StateMachine.GetCurrentState (m : StateMachine T W) : T :=
  m.mCurrentState

/-- Member `AddOnStart` (lines 54-58). -/
def StateMachine.AddOnStart (m : StateMachine T W) (state : T) (onStart : Action T W) :
    StateMachine T W :=
  let mp := index m.mStateContexts state
  { m with mStateContexts := store mp state { deref mp state with onStart := onStart } }

/-- Member `AddOnUpdate` (lines 62-66). -/
def StateMachine.AddOnUpdate (m : StateMachine T W) (state : T) (onUpdate : Action T W) :
    StateMachine T W :=
  let mp := index m.mStateContexts state
  { m with mStateContexts := store mp state { deref mp state with onUpdate := onUpdate } }

/-- Member `AddOnStop` (lines 70-74). -/
def StateMachine.AddOnStop (m : StateMachine T W) (state : T) (onStop : Action T W) :
    StateMachine T W :=
  let mp := index m.mStateContexts state
  { m with mStateContexts := store mp state { deref mp state with onStop := onStop } }

/-- Member `AddStateContext` (lines 78-86). -/
def StateMachine.AddStateContext (m : StateMachine T W) (state : T)
    (onStart onUpdate onStop : Action T W) : StateMachine T W :=
  ((m.AddOnStart state onStart).AddOnUpdate state onUpdate).AddOnStop state onStop

/-- Member `TransitionExists` (lines 130-137). -/
def TransitionExists (to_ : T) : List (TransitionContext T W) → Bool
  | [] => false
  | transition :: rest => if transition.to_ = to_ then true else TransitionExists to_ rest

/-- Member `AddTransition` (lines 90-101); `frm` and `to_` are the parameters `from` and `to`. -/
def StateMachine.AddTransition (m : StateMachine T W) (frm to_ : T)
    (condition : Condition T W) : StateMachine T W :=
  if frm = to_ then m
  else
    let mp := index m.mStateContexts frm
    if TransitionExists to_ (deref mp frm).transitions then { m with mStateContexts := mp }
    else
      let mp2 := index mp frm
      { m with
        mStateContexts := store mp2 frm
          { deref mp2 frm with
            transitions := (deref mp2 frm).transitions ++ [{ to_ := to_, condition := condition }] } }

/-- Member `SwitchToState` (lines 122-126), called in world `w`. -/
def StateMachine.SwitchToState (m : StateMachine T W) (w : W)
    (stateContext : TransitionContext T W) : Result T W :=
  let m1 : StateMachine T W :=
    { m with mStateContexts := index m.mStateContexts m.mCurrentState }
  match (deref m1.mStateContexts m1.mCurrentState).onStop with
  | none => { machine := m1, world := w, trace := [], threw := true }
  | some stop =>
    let w1 := stop m1.mCurrentState w
    let m2 : StateMachine T W := { m1 with mCurrentState := stateContext.to_ }
    let m3 : StateMachine T W :=
      { m2 with mStateContexts := index m2.mStateContexts m2.mCurrentState }
    match (deref m3.mStateContexts m3.mCurrentState).onStart with
    | none =>
      { machine := m3, world := w1, trace := [.onStop m1.mCurrentState], threw := true }
    | some start =>
      { machine := m3, world := start m3.mCurrentState w1,
        trace := [.onStop m1.mCurrentState, .onStart m3.mCurrentState], threw := false }

/-- The range-for loop of `Update` (lines 106-115) over the not yet visited part of
the vector, `i` being the position of its head, followed by line 117 when the loop
runs to its end. -/
def StateMachine.scan (m : StateMachine T W) :
    List (TransitionContext T W) → Nat → W → Result T W
  | [], _, w =>
    let m1 : StateMachine T W :=
      { m with mStateContexts := index m.mStateContexts m.mCurrentState }
    match (deref m1.mStateContexts m1.mCurrentState).onUpdate with
    | none => { machine := m1, world := w, trace := [], threw := true }
    | some update =>
      { machine := m1, world := update m1.mCurrentState w,
        trace := [.onUpdate m1.mCurrentState], threw := false }
  | stateContext :: rest, i, w =>
    if m.mCurrentState = stateContext.to_ then m.scan rest (i + 1) w
    else
      match stateContext.condition with
      | none => { machine := m, world := w, trace := [], threw := true }
      | some condition =>
        if (condition m.mCurrentState w).1 = false then
          (m.scan rest (i + 1) (condition m.mCurrentState w).2).logged
            (.condition m.mCurrentState i false)
        else
          (m.SwitchToState (condition m.mCurrentState w).2 stateContext).logged
            (.condition m.mCurrentState i true)

/-- Member `Update` (lines 105-118), called in world `w`. -/
def StateMachine.Update (m : StateMachine T W) (w : W) : Result T W :=
  let m1 : StateMachine T W :=
    { m with mStateContexts := index m.mStateContexts m.mCurrentState }
  m1.scan (deref m1.mStateContexts m1.mCurrentState).transitions 0 w

/-- The descriptor of state `s` as the next `mStateContexts[s]` finds it: the stored
one, or the default-constructed one when `s` has none yet. -/
def StateMachine.descriptor (m : StateMachine T W) (s : T) : StateContext T W :=
  deref m.mStateContexts s

/-- A call of one of the registration members, with its arguments. -/
inductive Registration (T W : Type) where
  | AddOnStart (state : T) (onStart : Action T W)
  | AddOnUpdate (state : T) (onUpdate : Action T W)
  | AddOnStop (state : T) (onStop : Action T W)
  | AddStateContext (state : T) (onStart onUpdate onStop : Action T W)
  | AddTransition (frm to_ : T) (condition : Condition T W)

/-- The machine after the registration call `r`. -/
def StateMachine.register (m : StateMachine T W) : Registration T W → StateMachine T W
  | .AddOnStart state onStart => m.AddOnStart state onStart
  | .AddOnUpdate state onUpdate => m.AddOnUpdate state onUpdate
  | .AddOnStop state onStop => m.AddOnStop state onStop
  | .AddStateContext state onStart onUpdate onStop =>
    m.AddStateContext state onStart onUpdate onStop
  | .AddTransition frm to_ condition => m.AddTransition frm to_ condition

/-- The machines a caller can hold: built by the constructor from `startState`, then
changed by registration calls and by calls of `Update` (in any world, and whether
or not the call is left by an exception). -/
inductive Reachable (startState : T) : StateMachine T W → Prop where
  | ctor : Reachable startState (StateMachine.ctor startState)
  | register {m : StateMachine T W} (r : Registration T W) :
    Reachable startState m → Reachable startState (m.register r)
  | update {m : StateMachine T W} (w : W) :
    Reachable startState m → Reachable startState (m.Update w).machine

/-- The caller's loop `Update(); ...; Update();` of `n` consecutive calls started in
world `w`; an exception leaving one call ends the loop.  The trace is the
concatenation of the traces of the calls. -/
def UpdateN : Nat → StateMachine T W → W → Result T W
  | 0, m, w => { machine := m, world := w, trace := [], threw := false }
  | n + 1, m, w =>
    let r := m.Update w
    if r.threw then r
    else
      let r2 := UpdateN n r.machine r.world
      { r2 with trace := r.trace ++ r2.trace }

/-- Scanning the transitions `ts` of state `cur` from world `w` reaches the end of `ts`
without firing: each transition either targets `cur` itself (its condition is not
looked at) or has a condition that, evaluated in its turn in the world left by the
earlier ones, returns false.  The value is the world after the last evaluation. -/
def passes (cur : T) : List (TransitionContext T W) → W → Option W
  | [], w => some w
  | t :: ts, w =>
    if cur = t.to_ then passes cur ts w
    else
      match t.condition with
      | none => none
      | some c => if (c cur w).1 = false then passes cur ts (c cur w).2 else none

/-- The events of a scan that `passes` the transitions `ts`, the head of `ts` being at
position `i`: one evaluation with result false for every transition not skipped. -/
def falseEvents (cur : T) : Nat → List (TransitionContext T W) → List (Event T)
  | _, [] => []
  | i, t :: ts =>
    if cur = t.to_ then falseEvents cur (i + 1) ts
    else Event.condition cur i false :: falseEvents cur (i + 1) ts

/-- The result `r` of the rest of a call, after the events `es` have happened. -/
def Result.after (es : List (Event T)) (r : Result T W) : Result T W :=
  { r with trace := es ++ r.trace }

/-- No transition in the vector of any state targets that same state. -/
def NoSelfTarget (m : StateMachine T W) : Prop :=
  ∀ s, ∀ t ∈ (m.descriptor s).transitions, t.to_ ≠ s

/-- Every entry of `mp2` is the entry of `mp` or a default-constructed descriptor at a
key that `mp` lacks. -/
def Grows (mp mp2 : T → Option (StateContext T W)) : Prop :=
  ∀ s, mp2 s = mp s ∨ (mp s = none ∧ mp2 s = some {})

/-- The targets of the transitions in the vector of every state are pairwise distinct. -/
def UniqueTargets (m : StateMachine T W) : Prop :=
  ∀ s, ((m.descriptor s).transitions.map (fun t => t.to_)).Nodup

/-- The mapping holds a transition from `a` to `b`. -/
def Edge (m : StateMachine T W) (a b : T) : Prop :=
  ∃ t ∈ (m.descriptor a).transitions, t.to_ = b

/-- A call of a mutating member of the public interface: a registration call, or
`Update` in the world the caller has prepared for it. -/
inductive Call (T W : Type) where
  | register (r : Registration T W)
  | update (w : W)

/-- The machine after the call `c` (after `Update` whether or not it threw). -/
def StateMachine.call (m : StateMachine T W) : Call T W → StateMachine T W
  | .register r => m.register r
  | .update w => (m.Update w).machine

/-- The machine constructed with `startState` after the calls `calls`, in order. -/
def run (startState : T) (calls : List (Call T W)) : StateMachine T W :=
  calls.foldl StateMachine.call (StateMachine.ctor startState)

/-- The loop of `Update` with the check of line 107 (`mCurrentState == stateContext.to`)
removed: the variant of `scan` that the claim about the defensive skip compares with. -/
def StateMachine.scanNoSkip (m : StateMachine T W) :
    List (TransitionContext T W) → Nat → W → Result T W
  | [], _, w =>
    let m1 : StateMachine T W :=
      { m with mStateContexts := index m.mStateContexts m.mCurrentState }
    match (deref m1.mStateContexts m1.mCurrentState).onUpdate with
    | none => { machine := m1, world := w, trace := [], threw := true }
    | some update =>
      { machine := m1, world := update m1.mCurrentState w,
        trace := [.onUpdate m1.mCurrentState], threw := false }
  | stateContext :: rest, i, w =>
    match stateContext.condition with
    | none => { machine := m, world := w, trace := [], threw := true }
    | some condition =>
      if (condition m.mCurrentState w).1 = false then
        (m.scanNoSkip rest (i + 1) (condition m.mCurrentState w).2).logged
          (.condition m.mCurrentState i false)
      else
        (m.SwitchToState (condition m.mCurrentState w).2 stateContext).logged
          (.condition m.mCurrentState i true)

/-- The variant of `Update` with the check of line 107 removed. -/
def StateMachine.UpdateNoSkip (m : StateMachine T W) (w : W) : Result T W :=
  let m1 : StateMachine T W :=
    { m with mStateContexts := index m.mStateContexts m.mCurrentState }
  m1.scanNoSkip (deref m1.mStateContexts m1.mCurrentState).transitions 0 w

/-- The transitions requested for source `A` by the registration calls, in call order:
one entry for each `AddTransition(A, to, cond)`; other calls contribute nothing. -/
def requested (A : T) : List (Registration T W) → List (TransitionContext T W)
  | [] => []
  | .AddTransition frm to_ condition :: rest =>
    if frm = A then { to_ := to_, condition := condition } :: requested A rest
    else requested A rest
  | _ :: rest => requested A rest

/-- The call is an `AddTransition` with source `A`. -/
def Registration.addsFrom (A : T) : Registration T W → Bool
  | .AddTransition frm _ _ => decide (frm = A)
  | _ => false

/-- For each target, only the first transition of the list with that target, in the
order of the list. -/
def firstPerTarget : List (TransitionContext T W) → List (TransitionContext T W)
  | [] => []
  | t :: ts => t :: (firstPerTarget ts).filter (fun u => decide (u.to_ ≠ t.to_))

/-- Reference definition of the transition list of `A` after the registration calls:
the requested transitions without those targeting `A` itself, first occurrence per
target only. -/
def referenceTransitions (A : T) (calls : List (Registration T W)) :
    List (TransitionContext T W) :=
  firstPerTarget ((requested A calls).filter (fun t => decide (t.to_ ≠ A)))

end Code

/-! ## Concrete machines -/

/-- Three state identifiers for the concrete machines. -/
inductive Demo where
  | A | B | C
  deriving DecidableEq, Repr

/-- The world of the concrete machines: the log that the caller's closures write, each
entry a tag and the value of `GetCurrentState()` seen by the closure. -/
abbrev Log := List (Nat × Demo)

/-- Callback that appends `tag` and the current state it observes to the log. -/
def note (tag : Nat) : Action Demo Log := some (fun cur w => w ++ [(tag, cur)])

/-- Condition that returns `b` and appends `tag` and the current state it observes. -/
def guard (tag : Nat) (b : Bool) : Condition Demo Log :=
  some (fun cur w => (b, w ++ [(tag, cur)]))

/-- Condition that always returns true and leaves the world alone. -/
def always : Condition Demo Log := some (fun _ w => (true, w))

/-- Condition that always returns false and leaves the world alone. -/
def never : Condition Demo Log := some (fun _ w => (false, w))

/-- Start state `A`, then `AddTransition(A, B, always)` and `AddTransition(A, C, always)`. -/
def demoAB_AC : StateMachine Demo Log :=
  ((StateMachine.ctor Demo.A).AddTransition Demo.A Demo.B always).AddTransition
    Demo.A Demo.C always

/-- Start state `A`, callbacks tagged 10, 11, 12 on `A` and 20, 21, 22 on `B`, transitions
`A → C` with a false condition tagged 1, `A → B` with a true condition tagged 2 and
`A → C` again (a duplicate, dropped) and `A → A` (dropped). -/
def demoFire : StateMachine Demo Log :=
  ((((((StateMachine.ctor Demo.A).AddStateContext Demo.A (note 10) (note 11) (note 12)).AddStateContext
    Demo.B (note 20) (note 21) (note 22)).AddTransition Demo.A Demo.C (guard 1 false)).AddTransition
    Demo.A Demo.B (guard 2 true)).AddTransition Demo.A Demo.C (guard 3 true)).AddTransition
    Demo.A Demo.A (guard 4 true)

/-- Start state `A`, callbacks tagged 10, 11, 12 on `A`, transitions `A → B` and `A → C`
with false conditions tagged 1 and 2. -/
def demoIdle : StateMachine Demo Log :=
  (((StateMachine.ctor Demo.A).AddStateContext Demo.A (note 10) (note 11) (note 12)).AddTransition
    Demo.A Demo.B (guard 1 false)).AddTransition Demo.A Demo.C (guard 2 false)

/-- Start state `A` and the single call `AddTransition(A, B, never)`. -/
def demoDup : StateMachine Demo Log :=
  (StateMachine.ctor Demo.A).AddTransition Demo.A Demo.B never

/-- Start state `A`, callbacks tagged 10, 11, 12 on `A` and no transition. -/
def demoSteady : StateMachine Demo Log :=
  (StateMachine.ctor Demo.A).AddStateContext Demo.A (note 10) (note 11) (note 12)

/-- Start state `C`, which is never registered; `A` has callbacks and a transition. -/
def demoUnregistered : StateMachine Demo Log :=
  ((StateMachine.ctor Demo.C).AddStateContext Demo.A (note 10) (note 11) (note 12)).AddTransition
    Demo.A Demo.B always

/-- Start state `A` and the single call `AddOnUpdate(A, nullptr)`. -/
def demoEmpty : StateMachine Demo Log :=
  (StateMachine.ctor Demo.A).AddOnUpdate Demo.A none

/-- Callback on states `Nat` that appends `tag` to a world `List Nat`. -/
def stamp (tag : Nat) : Action Nat (List Nat) := some (fun _ w => w ++ [tag])

/-- Condition on states `Nat` that returns `b` and appends `tag` to a world `List Nat`. -/
def tagged (tag : Nat) (b : Bool) : Condition Nat (List Nat) :=
  some (fun _ w => (b, w ++ [tag]))

/-- Start state `0` with exit callback tagged 100, entry callback of state `2` tagged 200,
and three transitions out of `0`: to `1` (false, tag 1), to `2` (true, tag 2) and to `3`
(true, tag 3).  The transition to `3` stands behind the one that fires. -/
def demoScan : StateMachine Nat (List Nat) :=
  (((((StateMachine.ctor 0).AddOnStop 0 (stamp 100)).AddOnStart 2 (stamp 200)).AddTransition
    0 1 (tagged 1 false)).AddTransition 0 2 (tagged 2 true)).AddTransition 0 3 (tagged 3 true)

/-! ## The example scenario -/

/-- The state identifiers of the example scenario. -/
inductive Phase where
  | Idle | Running | Done
  deriving DecidableEq, Repr

/-- The caller's variables in the example scenario: the flag and the counter the two
conditions read, and a log that the callbacks write (tag and observed current state). -/
structure Vars where
  started : Bool
  progress : Nat
  log : List (Nat × Phase)
  deriving DecidableEq, Repr

/-- Callback of the scenario: appends `tag` and the current state it observes. -/
def mark (tag : Nat) : Action Phase Vars :=
  some (fun cur v => { v with log := v.log ++ [(tag, cur)] })

/-- The condition `started == true`. -/
def isStarted : Condition Phase Vars := some (fun _ v => (v.started == true, v))

/-- The condition `progress >= 100`. -/
def isComplete : Condition Phase Vars := some (fun _ v => (decide (v.progress ≥ 100), v))

/-- The machine of the scenario: start `Idle`, callbacks on the three states (tags 10-12,
20-22, 30-32 for entry, update, exit), `Idle → Running` when started, `Running → Done`
when the progress is at least 100. -/
def scenario : StateMachine Phase Vars :=
  ((((StateMachine.ctor Phase.Idle).AddStateContext Phase.Idle (mark 10) (mark 11) (mark 12)).AddStateContext
    Phase.Running (mark 20) (mark 21) (mark 22)).AddStateContext
    Phase.Done (mark 30) (mark 31) (mark 32)).AddTransition
    Phase.Idle Phase.Running isStarted |>.AddTransition Phase.Running Phase.Done isComplete

/-- First tick of the scenario: `started = false`. -/
def tick1 : Result Phase Vars :=
  scenario.Update { started := false, progress := 0, log := [] }

/-- Second tick: the caller has set `started = true`. -/
def tick2 : Result Phase Vars :=
  tick1.machine.Update { tick1.world with started := true }

/-- Third tick: the caller has set `progress = 50`. -/
def tick3 : Result Phase Vars :=
  tick2.machine.Update { tick2.world with progress := 50 }

/-- Fourth tick: the caller has set `progress = 100`. -/
def tick4 : Result Phase Vars :=
  tick3.machine.Update { tick3.world with progress := 100 }

/-! ## Closures that call back into the machine

The embedding above gives a callable no access to the machine (spec section 5 calls
re-entry an unsupported pattern).  The definitions of this part embed the same members
for closures that hold a reference to the machine and call `Update()` on it from
inside a callback or a condition.  The body of a closure is a list of steps; the
members are those of `StateMachine.h` again, with the machine threaded through every
invocation, since a nested call may change `mCurrentState` and insert descriptors.
A nested call of `Update` is run with one unit of fuel less; `none` means that the
nesting is deeper than the fuel.
-/

/-- One statement of the body of a closure that holds a reference to the machine: an
effect on the world (the closure sees `GetCurrentState()`), or the statement
`if (when) sm.Update();`. -/
inductive Step (T W : Type) where
  | effect (f : T → W → W)
  | update (when : T → W → Bool)

/-- Callable of type `std::function<void()>` whose body may call `Update()`; `none` is
the empty function object. -/
abbrev ReAction (T W : Type) := Option (List (Step T W))

/-- Target of a `std::function<bool()>` whose body may call `Update()`: the statements
`body`, then `return result;`. -/
structure ReGuard (T W : Type) where
  body : List (Step T W)
  result : T → W → Bool

/-- Callable of type `std::function<bool()>`; `none` is the empty function object. -/
abbrev ReCondition (T W : Type) := Option (ReGuard T W)

/-- Struct `TransitionContext` (lines 7-10) holding a closure that may re-enter. -/
structure ReTransitionContext (T W : Type) where
  to_ : T
  condition : ReCondition T W

/-- Struct `StateContext` (lines 12-18) holding closures that may re-enter; the defaults
are the lambdas `[] {}` (an empty body) and the empty vector. -/
structure ReStateContext (T W : Type) where
  onStart : ReAction T W := some []
  onUpdate : ReAction T W := some []
  onStop : ReAction T W := some []
  transitions : List (ReTransitionContext T W) := []

/-- The data members of `StateMachine<T>` (lines 40-41), closures that may re-enter. -/
structure ReStateMachine (T W : Type) where
  mStateContexts : T → Option (ReStateContext T W)
  mCurrentState : T

/-- What a call of `Update` with closures that may re-enter leaves behind; the trace
holds the events of the nested calls at the place where they happen. -/
structure ReResult (T W : Type) where
  machine : ReStateMachine T W
  world : W
  trace : List (Event T)
  threw : Bool

/-- The result `r` of the rest of a call, after the events `es` have happened. -/
def ReResult.after {T W : Type} (es : List (Event T)) (r : ReResult T W) : ReResult T W :=
  { r with trace := es ++ r.trace }

section Reentrant

variable {T W : Type} [DecidableEq T]

/-- The mapping after `operator[]` at key `k` (insertion of a default descriptor). -/
def reIndex (mp : T → Option (ReStateContext T W)) (k : T) :
    T → Option (ReStateContext T W) :=
  match mp k with
  | some _ => mp
  | none => fun j => if j = k then some {} else mp j

/-- The descriptor that the reference returned by `operator[]` at key `k` denotes. -/
def reDeref (mp : T → Option (ReStateContext T W)) (k : T) : ReStateContext T W :=
  (mp k).getD {}

/-- Assignment of `c` through the reference returned by `operator[]` at key `k`. -/
def reStore (mp : T → Option (ReStateContext T W)) (k : T) (c : ReStateContext T W) :
    T → Option (ReStateContext T W) :=
  fun j => if j = k then some c else mp j

/-- Constructor `StateMachine(T startState)` (line 50). -/
def ReStateMachine.ctor (startState : T) : ReStateMachine T W :=
  { mStateContexts := fun _ => none, mCurrentState := startState }

/-- Member `AddOnStart` (lines 54-58). -/
def ReStateMachine.AddOnStart (m : ReStateMachine T W) (state : T) (onStart : ReAction T W) :
    ReStateMachine T W :=
  let mp := reIndex m.mStateContexts state
  { m with mStateContexts := reStore mp state { reDeref mp state with onStart := onStart } }

/-- Member `AddOnUpdate` (lines 62-66). -/
def ReStateMachine.AddOnUpdate (m : ReStateMachine T W) (state : T)
    (onUpdate : ReAction T W) : ReStateMachine T W :=
  let mp := reIndex m.mStateContexts state
  { m with
    mStateContexts := reStore mp state { reDeref mp state with onUpdate := onUpdate } }

/-- Member `AddOnStop` (lines 70-74). -/
def ReStateMachine.AddOnStop (m : ReStateMachine T W) (state : T) (onStop : ReAction T W) :
    ReStateMachine T W :=
  let mp := reIndex m.mStateContexts state
  { m with mStateContexts := reStore mp state { reDeref mp state with onStop := onStop } }

/-- Member `TransitionExists` (lines 130-137). -/
def reTransitionExists (to_ : T) : List (ReTransitionContext T W) → Bool
  | [] => false
  | transition :: rest => if transition.to_ = to_ then true else reTransitionExists to_ rest

/-- Member `AddTransition` (lines 90-101). -/
def ReStateMachine.AddTransition (m : ReStateMachine T W) (frm to_ : T)
    (condition : ReCondition T W) : ReStateMachine T W :=
  if frm = to_ then m
  else
    let mp := reIndex m.mStateContexts frm
    if reTransitionExists to_ (reDeref mp frm).transitions then { m with mStateContexts := mp }
    else
      let mp2 := reIndex mp frm
      { m with
        mStateContexts := reStore mp2 frm
          { reDeref mp2 frm with
            transitions :=
              (reDeref mp2 frm).transitions ++ [{ to_ := to_, condition := condition }] } }

/-- The body `steps` of a closure run on machine `m` in world `w`; `update` is what the
statement `sm.Update()` does.  An exception leaving a nested call leaves the body. -/
def runBody (update : ReStateMachine T W → W → Option (ReResult T W)) :
    List (Step T W) → ReStateMachine T W → W → Option (ReResult T W)
  | [], m, w => some { machine := m, world := w, trace := [], threw := false }
  | .effect f :: rest, m, w => runBody update rest m (f m.mCurrentState w)
  | .update when :: rest, m, w =>
    if when m.mCurrentState w = true then
      match update m w with
      | none => none
      | some r =>
        if r.threw = true then some r
        else (runBody update rest r.machine r.world).map (ReResult.after r.trace)
    else runBody update rest m w

/-- Member `SwitchToState` (lines 122-126): the exit callback is reached through the
current state at line 123, `mCurrentState` is assigned at line 124 whatever the exit
callback did, the entry callback is reached through the new current state. -/
def ReStateMachine.SwitchToState (update : ReStateMachine T W → W → Option (ReResult T W))
    (m : ReStateMachine T W) (w : W) (stateContext : ReTransitionContext T W) :
    Option (ReResult T W) :=
  let m1 : ReStateMachine T W :=
    { m with mStateContexts := reIndex m.mStateContexts m.mCurrentState }
  match (reDeref m1.mStateContexts m1.mCurrentState).onStop with
  | none => some { machine := m1, world := w, trace := [], threw := true }
  | some stop =>
    match runBody update stop m1 w with
    | none => none
    | some r1 =>
      if r1.threw = true then some (r1.after [.onStop m1.mCurrentState])
      else
        let m2 : ReStateMachine T W := { r1.machine with mCurrentState := stateContext.to_ }
        let m3 : ReStateMachine T W :=
          { m2 with mStateContexts := reIndex m2.mStateContexts m2.mCurrentState }
        match (reDeref m3.mStateContexts m3.mCurrentState).onStart with
        | none =>
          some { machine := m3, world := r1.world,
                 trace := .onStop m1.mCurrentState :: r1.trace, threw := true }
        | some start =>
          (runBody update start m3 r1.world).map
            (ReResult.after (.onStop m1.mCurrentState :: r1.trace ++ [.onStart m3.mCurrentState]))

/-- The range-for loop of `Update` (lines 106-115) over the not yet visited part of the
vector bound at line 106, followed by line 117.  The test of line 107 and the lookup
of line 117 read `mCurrentState` as the conditions evaluated so far have left it. -/
def ReStateMachine.scan (update : ReStateMachine T W → W → Option (ReResult T W)) :
    List (ReTransitionContext T W) → Nat → ReStateMachine T W → W → Option (ReResult T W)
  | [], _, m, w =>
    let m1 : ReStateMachine T W :=
      { m with mStateContexts := reIndex m.mStateContexts m.mCurrentState }
    match (reDeref m1.mStateContexts m1.mCurrentState).onUpdate with
    | none => some { machine := m1, world := w, trace := [], threw := true }
    | some body => (runBody update body m1 w).map (ReResult.after [.onUpdate m1.mCurrentState])
  | stateContext :: rest, i, m, w =>
    if m.mCurrentState = stateContext.to_ then ReStateMachine.scan update rest (i + 1) m w
    else
      match stateContext.condition with
      | none => some { machine := m, world := w, trace := [], threw := true }
      | some g =>
        match runBody update g.body m w with
        | none => none
        | some r =>
          if r.threw = true then some r
          else if g.result r.machine.mCurrentState r.world = false then
            (ReStateMachine.scan update rest (i + 1) r.machine r.world).map
              (ReResult.after (.condition m.mCurrentState i false :: r.trace))
          else
            (ReStateMachine.SwitchToState update r.machine r.world stateContext).map
              (ReResult.after (.condition m.mCurrentState i true :: r.trace))

/-- Member `Update` (lines 105-118) with closures that may re-enter; nested calls of
`Update` get the fuel `n` when this call has `n + 1`. -/
def ReStateMachine.Update : Nat → ReStateMachine T W → W → Option (ReResult T W)
  | 0 => fun _ _ => none
  | n + 1 => fun m w =>
    let m1 : ReStateMachine T W :=
      { m with mStateContexts := reIndex m.mStateContexts m.mCurrentState }
    ReStateMachine.scan (ReStateMachine.Update n)
      (reDeref m1.mStateContexts m1.mCurrentState).transitions 0 m1 w

/-- The loop of `Update` with the check of line 107 removed, closures that may
re-enter. -/
def ReStateMachine.scanNoSkip (update : ReStateMachine T W → W → Option (ReResult T W)) :
    List (ReTransitionContext T W) → Nat → ReStateMachine T W → W → Option (ReResult T W)
  | [], _, m, w =>
    let m1 : ReStateMachine T W :=
      { m with mStateContexts := reIndex m.mStateContexts m.mCurrentState }
    match (reDeref m1.mStateContexts m1.mCurrentState).onUpdate with
    | none => some { machine := m1, world := w, trace := [], threw := true }
    | some body => (runBody update body m1 w).map (ReResult.after [.onUpdate m1.mCurrentState])
  | stateContext :: rest, i, m, w =>
    match stateContext.condition with
    | none => some { machine := m, world := w, trace := [], threw := true }
    | some g =>
      match runBody update g.body m w with
      | none => none
      | some r =>
        if r.threw = true then some r
        else if g.result r.machine.mCurrentState r.world = false then
          (ReStateMachine.scanNoSkip update rest (i + 1) r.machine r.world).map
            (ReResult.after (.condition m.mCurrentState i false :: r.trace))
        else
          (ReStateMachine.SwitchToState update r.machine r.world stateContext).map
            (ReResult.after (.condition m.mCurrentState i true :: r.trace))

/-- The variant of `Update` with the check of line 107 removed, closures that may
re-enter; the closures call this variant. -/
def ReStateMachine.UpdateNoSkip : Nat → ReStateMachine T W → W → Option (ReResult T W)
  | 0 => fun _ _ => none
  | n + 1 => fun m w =>
    let m1 : ReStateMachine T W :=
      { m with mStateContexts := reIndex m.mStateContexts m.mCurrentState }
    ReStateMachine.scanNoSkip (ReStateMachine.UpdateNoSkip n)
      (reDeref m1.mStateContexts m1.mCurrentState).transitions 0 m1 w

/-- What is compared of a result: current state, world, trace, exception or not. -/
def ReResult.observed (r : ReResult T W) : T × W × List (Event T) × Bool :=
  (r.machine.mCurrentState, r.world, r.trace, r.threw)

end Reentrant

/-- Condition with an empty body that returns `b` and leaves the world alone. -/
def plain (b : Bool) : ReCondition Demo Log := some { body := [], result := fun _ _ => b }

/-- Start state `A`; the entry callback of `B` writes tag 20 and calls `Update()`;
transitions `A → B` and `B → A`, both with a true condition. -/
def demoReenter : ReStateMachine Demo Log :=
  (((ReStateMachine.ctor Demo.A).AddOnStart Demo.B
    (some [.effect (fun cur w => w ++ [(20, cur)]), .update (fun _ _ => true)])).AddTransition
    Demo.A Demo.B (plain true)).AddTransition Demo.B Demo.A (plain true)

/-- Condition that writes tag 1, calls `Update()` if this was its first evaluation (tag 1
is in the log once), and returns false. -/
def callsUpdateOnce : ReCondition Demo Log :=
  some { body := [.effect (fun cur w => w ++ [(1, cur)]),
                  .update (fun _ w => decide ((w.filter (fun e => e.1 = 1)).length = 1))],
         result := fun _ _ => false }

/-- Start state `A`; update callback of `B` tagged 21; transitions `A → C` with the
condition `callsUpdateOnce` and `A → B` with a true condition that writes tag 2. -/
def demoGuardReenters : ReStateMachine Demo Log :=
  (((ReStateMachine.ctor Demo.A).AddOnUpdate Demo.B
    (some [.effect (fun cur w => w ++ [(21, cur)])])).AddTransition
    Demo.A Demo.C callsUpdateOnce).AddTransition Demo.A Demo.B
    (some { body := [.effect (fun cur w => w ++ [(2, cur)])], result := fun _ _ => true })

/-! ## The mapping -/

section Growth

variable {T W : Type}

theorem grows_refl (mp : T → Option (StateContext T W)) : Grows mp mp :=
  fun _ => Or.inl rfl

theorem grows_trans {mp mp2 mp3 : T → Option (StateContext T W)} (h12 : Grows mp mp2)
    (h23 : Grows mp2 mp3) : Grows mp mp3 := by
  intro s
  rcases h23 s with h | ⟨hn, hd⟩
  · rw [h]; exact h12 s
  · rcases h12 s with h | ⟨hn2, hd2⟩
    · right; exact ⟨h ▸ hn, hd⟩
    · rw [hd2] at hn; cases hn

theorem deref_of_grows {mp mp2 : T → Option (StateContext T W)} (h : Grows mp mp2) (j : T) :
    deref mp2 j = deref mp j := by
  rcases h j with h | ⟨hn, hd⟩
  · simp [deref, h]
  · simp [deref, hn, hd]

theorem noSelfTarget_ctor (startState : T) :
    NoSelfTarget (StateMachine.ctor startState : StateMachine T W) := by
  intro s t ht
  simp [StateMachine.descriptor, StateMachine.ctor, deref] at ht

theorem eq_of_fields {m1 m2 : StateMachine T W}
    (h1 : m1.mStateContexts = m2.mStateContexts) (h2 : m1.mCurrentState = m2.mCurrentState) :
    m1 = m2 := by
  cases m1; cases m2
  simp only at h1 h2
  rw [h1, h2]

end Growth

section Lemmas

variable {T W : Type} [DecidableEq T]

theorem index_of_some {mp : T → Option (StateContext T W)} {k : T} {c : StateContext T W}
    (h : mp k = some c) : index mp k = mp := by
  simp [index, h]

theorem index_of_none {mp : T → Option (StateContext T W)} {k : T} (h : mp k = none) :
    index mp k = fun j => if j = k then some {} else mp j := by
  simp [index, h]

theorem index_apply_ne (mp : T → Option (StateContext T W)) {k j : T} (h : j ≠ k) :
    index mp k j = mp j := by
  cases hk : mp k with
  | none => simp [index_of_none hk, h]
  | some c => rw [index_of_some hk]

theorem index_apply_self (mp : T → Option (StateContext T W)) (k : T) :
    index mp k k = some (deref mp k) := by
  cases hk : mp k with
  | none => simp [index_of_none hk, deref, hk]
  | some c => rw [index_of_some hk]; simp [deref, hk]

theorem deref_index (mp : T → Option (StateContext T W)) (k j : T) :
    deref (index mp k) j = deref mp j := by
  by_cases h : j = k
  · subst h
    simp [deref, index_apply_self]
  · simp [deref, index_apply_ne mp h]

theorem index_index (mp : T → Option (StateContext T W)) (k : T) :
    index (index mp k) k = index mp k :=
  index_of_some (index_apply_self mp k)

theorem deref_store_self (mp : T → Option (StateContext T W)) (k : T)
    (c : StateContext T W) : deref (store mp k c) k = c := by
  simp [deref, store]

theorem store_apply_ne (mp : T → Option (StateContext T W)) {k j : T}
    (c : StateContext T W) (h : j ≠ k) : store mp k c j = mp j := by
  simp [store, h]

theorem grows_index (mp : T → Option (StateContext T W)) (k : T) : Grows mp (index mp k) := by
  intro s
  cases hk : mp k with
  | some c => left; rw [index_of_some hk]
  | none =>
    rw [index_of_none hk]
    by_cases h : s = k
    · subst h; right; simp [hk]
    · left; simp [h]

/-! ## One call of `Update` -/

theorem switchToState_eq (m : StateMachine T W) (w : W) (t : TransitionContext T W)
    (f g : T → W → W) (hstop : (m.descriptor m.mCurrentState).onStop = some f)
    (hstart : (m.descriptor t.to_).onStart = some g) :
    m.SwitchToState w t =
      { machine :=
          { mStateContexts := index (index m.mStateContexts m.mCurrentState) t.to_,
            mCurrentState := t.to_ },
        world := g t.to_ (f m.mCurrentState w),
        trace := [.onStop m.mCurrentState, .onStart t.to_],
        threw := false } := by
  simp only [StateMachine.descriptor] at hstop hstart
  simp [StateMachine.SwitchToState, deref_index, hstop, hstart]

theorem scan_nil_eq (m : StateMachine T W) (i : Nat) (w : W) (u : T → W → W)
    (hupd : (m.descriptor m.mCurrentState).onUpdate = some u) :
    m.scan [] i w =
      { machine := { m with mStateContexts := index m.mStateContexts m.mCurrentState },
        world := u m.mCurrentState w,
        trace := [.onUpdate m.mCurrentState],
        threw := false } := by
  simp only [StateMachine.descriptor] at hupd
  simp [StateMachine.scan, deref_index, hupd]

theorem scan_cons_skip (m : StateMachine T W) (t : TransitionContext T W)
    (rest : List (TransitionContext T W)) (i : Nat) (w : W) (h : m.mCurrentState = t.to_) :
    m.scan (t :: rest) i w = m.scan rest (i + 1) w := by
  rw [StateMachine.scan, if_pos h]

theorem scan_cons_false (m : StateMachine T W) (t : TransitionContext T W)
    (rest : List (TransitionContext T W)) (i : Nat) (w : W) (c : T → W → Bool × W)
    (h : ¬ m.mCurrentState = t.to_) (hc : t.condition = some c)
    (hb : (c m.mCurrentState w).1 = false) :
    m.scan (t :: rest) i w =
      (m.scan rest (i + 1) (c m.mCurrentState w).2).logged
        (.condition m.mCurrentState i false) := by
  rw [StateMachine.scan, if_neg h]
  simp only [hc]
  rw [if_pos hb]

theorem scan_cons_true (m : StateMachine T W) (t : TransitionContext T W)
    (rest : List (TransitionContext T W)) (i : Nat) (w : W) (c : T → W → Bool × W)
    (h : ¬ m.mCurrentState = t.to_) (hc : t.condition = some c)
    (hb : (c m.mCurrentState w).1 = true) :
    m.scan (t :: rest) i w =
      (m.SwitchToState (c m.mCurrentState w).2 t).logged
        (.condition m.mCurrentState i true) := by
  rw [StateMachine.scan, if_neg h]
  simp only [hc]
  rw [if_neg (by simp [hb])]

theorem scan_passes (m : StateMachine T W) (pre rest : List (TransitionContext T W)) :
    ∀ (i : Nat) (w w1 : W), passes m.mCurrentState pre w = some w1 →
      m.scan (pre ++ rest) i w =
        (m.scan rest (i + pre.length) w1).after (falseEvents m.mCurrentState i pre) := by
  induction pre with
  | nil =>
    intro i w w1 h
    simp only [passes, Option.some.injEq] at h
    subst h
    simp [falseEvents, Result.after]
  | cons t ts ih =>
    intro i w w1 h
    have hlen : i + (t :: ts).length = i + 1 + ts.length := by
      simp only [List.length_cons]; omega
    rw [List.cons_append, hlen]
    by_cases hself : m.mCurrentState = t.to_
    · rw [passes, if_pos hself] at h
      rw [scan_cons_skip m t _ i w hself, ih (i + 1) w w1 h, falseEvents, if_pos hself]
    · cases hc : t.condition with
      | none => simp [passes, hself, hc] at h
      | some c =>
        rw [passes, if_neg hself] at h
        simp only [hc] at h
        by_cases hb : (c m.mCurrentState w).1 = false
        · rw [if_pos hb] at h
          rw [scan_cons_false m t _ i w c hself hc hb, ih (i + 1) _ w1 h, falseEvents,
            if_neg hself]
          rfl
        · rw [if_neg hb] at h
          cases h

theorem falseEvents_filter_isCallback (cur : T) (ts : List (TransitionContext T W)) :
    ∀ i, (falseEvents cur i ts).filter Event.isCallback = [] := by
  induction ts with
  | nil => intro i; rfl
  | cons t ts ih =>
    intro i
    by_cases h : cur = t.to_
    · rw [falseEvents, if_pos h]; exact ih _
    · rw [falseEvents, if_neg h]
      simp only [List.filter_cons, Event.isCallback, ih]
      rfl

theorem falseEvents_filter_isCondition (cur : T) (ts : List (TransitionContext T W)) :
    ∀ i, (falseEvents cur i ts).filter Event.isCondition = falseEvents cur i ts := by
  induction ts with
  | nil => intro i; rfl
  | cons t ts ih =>
    intro i
    by_cases h : cur = t.to_
    · rw [falseEvents, if_pos h]; exact ih _
    · rw [falseEvents, if_neg h]
      simp only [List.filter_cons, Event.isCondition, ih]
      rfl

theorem falseEvents_eq_range (cur : T) (ts : List (TransitionContext T W))
    (hno : ∀ t ∈ ts, t.to_ ≠ cur) :
    ∀ i, falseEvents cur i ts =
      (List.range ts.length).map (fun j => Event.condition cur (i + j) false) := by
  induction ts with
  | nil => intro i; rfl
  | cons t ts ih =>
    intro i
    have h : ¬ cur = t.to_ := fun e => hno t (List.mem_cons_self _ _) e.symm
    have ih2 := ih (fun u hu => hno u (List.mem_cons_of_mem _ hu)) (i + 1)
    simp only [falseEvents, h, if_false, ih2, List.length_cons, List.range_succ_eq_map,
      List.map_cons, List.map_map, Nat.add_zero]
    congr 1
    apply List.map_congr_left
    intro j _
    simp only [Function.comp]
    congr 1
    omega

theorem update_fires (m : StateMachine T W) (w w1 : W)
    (pre post : List (TransitionContext T W)) (t : TransitionContext T W)
    (c : T → W → Bool × W) (f g : T → W → W)
    (hlist : (m.descriptor m.mCurrentState).transitions = pre ++ t :: post)
    (hpre : passes m.mCurrentState pre w = some w1)
    (hto : t.to_ ≠ m.mCurrentState)
    (hcond : t.condition = some c) (htrue : (c m.mCurrentState w1).1 = true)
    (hstop : (m.descriptor m.mCurrentState).onStop = some f)
    (hstart : (m.descriptor t.to_).onStart = some g) :
    m.Update w =
      { machine :=
          { mStateContexts := index (index m.mStateContexts m.mCurrentState) t.to_,
            mCurrentState := t.to_ },
        world := g t.to_ (f m.mCurrentState (c m.mCurrentState w1).2),
        trace := falseEvents m.mCurrentState 0 pre ++
          [.condition m.mCurrentState pre.length true, .onStop m.mCurrentState,
            .onStart t.to_],
        threw := false } := by
  simp only [StateMachine.descriptor] at hlist hstop hstart
  have hne : ¬ m.mCurrentState = t.to_ := fun e => hto e.symm
  simp only [StateMachine.Update, deref_index, hlist]
  have h1 := scan_passes
    ({ m with mStateContexts := index m.mStateContexts m.mCurrentState } : StateMachine T W)
    pre (t :: post) 0 w w1 hpre
  have h2 := scan_cons_true
    ({ m with mStateContexts := index m.mStateContexts m.mCurrentState } : StateMachine T W)
    t post (0 + pre.length) w1 c hne hcond htrue
  have h3 := switchToState_eq
    ({ m with mStateContexts := index m.mStateContexts m.mCurrentState } : StateMachine T W)
    (c m.mCurrentState w1).2 t f g
    (by simpa [StateMachine.descriptor, deref_index] using hstop)
    (by simpa [StateMachine.descriptor, deref_index] using hstart)
  rw [h1, h2, h3]
  simp [Result.logged, Result.after, index_index]

theorem update_idles (m : StateMachine T W) (w w1 : W) (u : T → W → W)
    (hpass : passes m.mCurrentState (m.descriptor m.mCurrentState).transitions w = some w1)
    (hupd : (m.descriptor m.mCurrentState).onUpdate = some u) :
    m.Update w =
      { machine := { m with mStateContexts := index m.mStateContexts m.mCurrentState },
        world := u m.mCurrentState w1,
        trace := falseEvents m.mCurrentState 0 (m.descriptor m.mCurrentState).transitions ++
          [.onUpdate m.mCurrentState],
        threw := false } := by
  simp only [StateMachine.descriptor] at hpass hupd
  simp only [StateMachine.Update, deref_index, StateMachine.descriptor]
  have h := scan_passes
    ({ m with mStateContexts := index m.mStateContexts m.mCurrentState } : StateMachine T W)
    (deref m.mStateContexts m.mCurrentState).transitions [] 0 w w1 hpass
  rw [List.append_nil] at h
  rw [h, scan_nil_eq _ _ w1 u (by simpa [StateMachine.descriptor, deref_index] using hupd)]
  simp [Result.after, index_index]

theorem mem_falseEvents (cur : T) (ts : List (TransitionContext T W)) :
    ∀ (i : Nat) (e : Event T), e ∈ falseEvents cur i ts →
      ∃ j, e = Event.condition cur j false ∧ i ≤ j ∧ j < i + ts.length := by
  induction ts with
  | nil => intro i e h; simp [falseEvents] at h
  | cons t ts ih =>
    intro i e h
    by_cases hs : cur = t.to_
    · rw [falseEvents, if_pos hs] at h
      obtain ⟨j, hj, h1, h2⟩ := ih (i + 1) e h
      exact ⟨j, hj, by omega, by simp only [List.length_cons]; omega⟩
    · rw [falseEvents, if_neg hs] at h
      rcases List.mem_cons.mp h with h | h
      · exact ⟨i, h, le_refl i, by simp only [List.length_cons]; omega⟩
      · obtain ⟨j, hj, h1, h2⟩ := ih (i + 1) e h
        exact ⟨j, hj, by omega, by simp only [List.length_cons]; omega⟩

theorem count_falseEvents_of_isCallback (cur : T) (ts : List (TransitionContext T W))
    (i : Nat) (e : Event T) (he : e.isCallback = true) :
    (falseEvents cur i ts).count e = 0 := by
  apply List.count_eq_zero.mpr
  intro h
  obtain ⟨j, hj, _, _⟩ := mem_falseEvents cur ts i e h
  rw [hj] at he
  simp [Event.isCallback] at he

/-! ## Descriptors after a call -/

theorem switchToState_grows (m : StateMachine T W) (w : W) (t : TransitionContext T W) :
    Grows m.mStateContexts (m.SwitchToState w t).machine.mStateContexts := by
  unfold StateMachine.SwitchToState
  simp only
  split
  · exact grows_index _ _
  · split
    · exact grows_trans (grows_index _ _) (grows_index _ _)
    · exact grows_trans (grows_index _ _) (grows_index _ _)

theorem scan_grows (m : StateMachine T W) (ts : List (TransitionContext T W)) :
    ∀ (i : Nat) (w : W), Grows m.mStateContexts (m.scan ts i w).machine.mStateContexts := by
  induction ts with
  | nil =>
    intro i w
    unfold StateMachine.scan
    simp only
    split <;> exact grows_index _ _
  | cons t ts ih =>
    intro i w
    rw [StateMachine.scan]
    split
    · exact ih _ _
    · split
      · exact grows_refl _
      · split
        · exact ih _ _
        · exact switchToState_grows m _ t

theorem update_grows (m : StateMachine T W) (w : W) :
    Grows m.mStateContexts (m.Update w).machine.mStateContexts :=
  grows_trans (grows_index _ _) (scan_grows _ _ _ _)

theorem descriptor_Update (m : StateMachine T W) (w : W) (j : T) :
    (m.Update w).machine.descriptor j = m.descriptor j :=
  deref_of_grows (update_grows m w) j

theorem descriptor_AddOnStart (m : StateMachine T W) (state : T) (a : Action T W) (j : T) :
    (m.AddOnStart state a).descriptor j =
      if j = state then { m.descriptor state with onStart := a } else m.descriptor j := by
  by_cases h : j = state
  · subst h
    simp [StateMachine.descriptor, StateMachine.AddOnStart, deref_store_self, deref_index]
  · simp [StateMachine.descriptor, StateMachine.AddOnStart, deref, store, h,
      index_apply_ne _ h]

theorem descriptor_AddOnUpdate (m : StateMachine T W) (state : T) (a : Action T W) (j : T) :
    (m.AddOnUpdate state a).descriptor j =
      if j = state then { m.descriptor state with onUpdate := a } else m.descriptor j := by
  by_cases h : j = state
  · subst h
    simp [StateMachine.descriptor, StateMachine.AddOnUpdate, deref_store_self, deref_index]
  · simp [StateMachine.descriptor, StateMachine.AddOnUpdate, deref, store, h,
      index_apply_ne _ h]

theorem descriptor_AddOnStop (m : StateMachine T W) (state : T) (a : Action T W) (j : T) :
    (m.AddOnStop state a).descriptor j =
      if j = state then { m.descriptor state with onStop := a } else m.descriptor j := by
  by_cases h : j = state
  · subst h
    simp [StateMachine.descriptor, StateMachine.AddOnStop, deref_store_self, deref_index]
  · simp [StateMachine.descriptor, StateMachine.AddOnStop, deref, store, h,
      index_apply_ne _ h]

theorem descriptor_AddTransition (m : StateMachine T W) (frm to_ : T) (c : Condition T W)
    (j : T) :
    (m.AddTransition frm to_ c).descriptor j =
      if frm = to_ ∨ TransitionExists to_ (m.descriptor frm).transitions = true ∨ j ≠ frm
      then m.descriptor j
      else { m.descriptor frm with
        transitions := (m.descriptor frm).transitions ++ [{ to_ := to_, condition := c }] } := by
  unfold StateMachine.AddTransition
  by_cases h1 : frm = to_
  · simp [h1]
  · rw [if_neg h1]
    simp only [deref_index]
    by_cases h2 : TransitionExists to_ (deref m.mStateContexts frm).transitions = true
    · rw [if_pos h2]
      simp [StateMachine.descriptor, deref_index, h2]
    · rw [if_neg h2]
      by_cases h3 : j = frm
      · subst h3
        simp [StateMachine.descriptor, deref_store_self, h1, h2]
      · simp [StateMachine.descriptor, deref, store, h3, index_apply_ne _ h3]

theorem mCurrentState_register (m : StateMachine T W) (r : Registration T W) :
    (m.register r).mCurrentState = m.mCurrentState := by
  cases r <;> simp only [StateMachine.register, StateMachine.AddOnStart,
    StateMachine.AddOnUpdate, StateMachine.AddOnStop, StateMachine.AddStateContext,
    StateMachine.AddTransition]
  split
  · rfl
  · split <;> rfl

theorem transitions_register_of_not_AddTransition (m : StateMachine T W)
    (r : Registration T W) (hr : ∀ frm to_ c, r ≠ Registration.AddTransition frm to_ c)
    (j : T) : ((m.register r).descriptor j).transitions = (m.descriptor j).transitions := by
  cases r with
  | AddOnStart s a =>
    simp only [StateMachine.register, descriptor_AddOnStart]
    split
    · next h => subst h; rfl
    · rfl
  | AddOnUpdate s a =>
    simp only [StateMachine.register, descriptor_AddOnUpdate]
    split
    · next h => subst h; rfl
    · rfl
  | AddOnStop s a =>
    simp only [StateMachine.register, descriptor_AddOnStop]
    split
    · next h => subst h; rfl
    · rfl
  | AddStateContext s a b c =>
    simp only [StateMachine.register, StateMachine.AddStateContext, descriptor_AddOnStop,
      descriptor_AddOnUpdate, descriptor_AddOnStart]
    split
    · next h => subst h; simp
    · rfl
  | AddTransition frm to_ c => exact absurd rfl (hr frm to_ c)

/-! ## Machines a caller can hold -/

theorem noSelfTarget_register (m : StateMachine T W) (r : Registration T W)
    (h : NoSelfTarget m) : NoSelfTarget (m.register r) := by
  intro s t ht
  by_cases hr : ∀ frm to_ c, r ≠ Registration.AddTransition frm to_ c
  · rw [transitions_register_of_not_AddTransition m r hr s] at ht
    exact h s t ht
  · push_neg at hr
    obtain ⟨frm, to_, c, rfl⟩ := hr
    simp only [StateMachine.register, descriptor_AddTransition] at ht
    split at ht
    · exact h s t ht
    · next hcase =>
      push_neg at hcase
      obtain ⟨hne, _, hs⟩ := hcase
      subst hs
      rcases List.mem_append.mp ht with ht | ht
      · exact h s t ht
      · rw [List.mem_singleton.mp ht]
        exact fun e => hne e.symm

theorem noSelfTarget_update (m : StateMachine T W) (w : W) (h : NoSelfTarget m) :
    NoSelfTarget (m.Update w).machine := by
  intro s t ht
  rw [descriptor_Update] at ht
  exact h s t ht

theorem noSelfTarget_of_reachable {startState : T} {m : StateMachine T W}
    (h : Reachable startState m) : NoSelfTarget m := by
  induction h with
  | ctor => exact noSelfTarget_ctor startState
  | register r _ ih => exact noSelfTarget_register _ r ih
  | update w _ ih => exact noSelfTarget_update _ w ih

end Lemmas

/-! ## The step: claims C1 to C4 -/

section Step

variable {T W : Type} [DecidableEq T]

/-- C1, first match wins.  Let `t` be the first transition of the current state's vector
whose target differs from the current state and whose condition returns true when the
scan reaches it (the transitions `pre` before it are passed: skipped, or evaluated to
false in their turn), and let the exit callback of the current state and the entry
callback of the target be callable.  Then `Update` returns, the current state is the
target of `t`, which is the target of no transition behind `t` with another target, and
the entry callback of the target of `t` is the only entry callback invoked, once. -/
theorem update_first_match_wins (m : StateMachine T W) (w w1 : W)
    (pre post : List (TransitionContext T W)) (t : TransitionContext T W)
    (c : T → W → Bool × W) (f g : T → W → W)
    (hlist : (m.descriptor m.mCurrentState).transitions = pre ++ t :: post)
    (hpre : passes m.mCurrentState pre w = some w1)
    (hto : t.to_ ≠ m.mCurrentState)
    (hcond : t.condition = some c) (htrue : (c m.mCurrentState w1).1 = true)
    (hstop : (m.descriptor m.mCurrentState).onStop = some f)
    (hstart : (m.descriptor t.to_).onStart = some g) :
    (m.Update w).threw = false ∧
    (m.Update w).machine.GetCurrentState = t.to_ ∧
    (∀ u ∈ post, u.to_ ≠ t.to_ → (m.Update w).machine.GetCurrentState ≠ u.to_) ∧
    ∀ s, (m.Update w).trace.count (Event.onStart s) = if s = t.to_ then 1 else 0 := by
  rw [update_fires m w w1 pre post t c f g hlist hpre hto hcond htrue hstop hstart]
  refine ⟨rfl, rfl, fun u _ hu => fun e => hu e.symm, fun s => ?_⟩
  simp only [List.count_append,
    count_falseEvents_of_isCallback m.mCurrentState pre 0 (Event.onStart s) rfl]
  by_cases hs : s = t.to_
  · subst hs; simp
  · have hs2 : ¬ t.to_ = s := fun e => hs e.symm
    simp [hs, hs2]

/-- Witness of C1: `A → B` and `A → C`, both with a true condition, registered in that
order; one `Update` from `A` ends in `B`, the entry callback of `B` runs once and the
one of `C` never. -/
theorem update_first_match_wins_witness :
    (demoAB_AC.Update []).threw = false ∧
    (demoAB_AC.Update []).machine.GetCurrentState = Demo.B ∧
    (demoAB_AC.Update []).machine.GetCurrentState ≠ Demo.C ∧
    (demoAB_AC.Update []).trace.count (Event.onStart Demo.B) = 1 ∧
    (demoAB_AC.Update []).trace.count (Event.onStart Demo.C) = 0 :=
  have h := update_first_match_wins demoAB_AC [] [] [] [⟨Demo.C, always⟩] ⟨Demo.B, always⟩
    (fun _ w => (true, w)) (fun _ w => w) (fun _ w => w) rfl rfl (by decide) rfl rfl rfl rfl
  ⟨h.1, h.2.1, h.2.2.1 ⟨Demo.C, always⟩ (List.mem_singleton.mpr rfl) (by decide),
    h.2.2.2 Demo.B, h.2.2.2 Demo.C⟩

/-- C2, enter/exit ordering.  When the transition `t` from the current state `A` to
`B = t.to_` fires (as in C1), the callbacks invoked by the call are exactly the exit
callback of `A`, reached while the current state is `A`, then the entry callback of
`B`, reached while the current state is already `B`; the exit callback observes `A` as
current state and the entry callback observes `B`; no update callback of any state is
invoked; the call returns with current state `B`. -/
theorem update_enter_exit_order (m : StateMachine T W) (w w1 : W)
    (pre post : List (TransitionContext T W)) (t : TransitionContext T W)
    (c : T → W → Bool × W) (f g : T → W → W)
    (hlist : (m.descriptor m.mCurrentState).transitions = pre ++ t :: post)
    (hpre : passes m.mCurrentState pre w = some w1)
    (hto : t.to_ ≠ m.mCurrentState)
    (hcond : t.condition = some c) (htrue : (c m.mCurrentState w1).1 = true)
    (hstop : (m.descriptor m.mCurrentState).onStop = some f)
    (hstart : (m.descriptor t.to_).onStart = some g) :
    (m.Update w).trace.filter Event.isCallback =
      [Event.onStop m.mCurrentState, Event.onStart t.to_] ∧
    (m.Update w).world = g t.to_ (f m.mCurrentState (c m.mCurrentState w1).2) ∧
    (∀ s, Event.onUpdate s ∉ (m.Update w).trace) ∧
    (m.Update w).machine.GetCurrentState = t.to_ ∧
    (m.Update w).threw = false := by
  rw [update_fires m w w1 pre post t c f g hlist hpre hto hcond htrue hstop hstart]
  refine ⟨?_, rfl, ?_, rfl, rfl⟩
  · simp only [List.filter_append, falseEvents_filter_isCallback]
    rfl
  · intro s hs
    rcases List.mem_append.mp hs with h | h
    · obtain ⟨j, hj, _, _⟩ := mem_falseEvents _ _ _ _ h
      cases hj
    · simp at h

/-- Witness of C2 on `demoFire`: the log shows the two conditions, then the exit callback
of `A` (tag 12) seeing `A`, then the entry callback of `B` (tag 20) seeing `B`. -/
theorem update_enter_exit_order_witness :
    (demoFire.Update []).trace.filter Event.isCallback =
      [Event.onStop Demo.A, Event.onStart Demo.B] ∧
    (demoFire.Update []).world =
      [(1, Demo.A), (2, Demo.A), (12, Demo.A), (20, Demo.B)] ∧
    (∀ s, Event.onUpdate s ∉ (demoFire.Update []).trace) ∧
    (demoFire.Update []).machine.GetCurrentState = Demo.B ∧
    (demoFire.Update []).threw = false :=
  update_enter_exit_order demoFire [] [(1, Demo.A)] [⟨Demo.C, guard 1 false⟩] []
    ⟨Demo.B, guard 2 true⟩ (fun cur w => (true, w ++ [(2, cur)]))
    (fun cur w => w ++ [(12, cur)]) (fun cur w => w ++ [(20, cur)])
    rfl rfl (by decide) rfl rfl rfl rfl

/-- C3, no transition fires.  When the scan passes every transition of the current
state (each condition evaluated returns false; in particular when the vector is empty
or the state has no descriptor) and the update callback is callable, the call invokes
exactly one callback, the update callback of the current state, in the world left by
the conditions, no entry or exit callback, and the current state is unchanged. -/
theorem update_no_fire (m : StateMachine T W) (w w1 : W) (u : T → W → W)
    (hpass : passes m.mCurrentState (m.descriptor m.mCurrentState).transitions w = some w1)
    (hupd : (m.descriptor m.mCurrentState).onUpdate = some u) :
    (m.Update w).threw = false ∧
    (m.Update w).trace.filter Event.isCallback = [Event.onUpdate m.mCurrentState] ∧
    (m.Update w).world = u m.mCurrentState w1 ∧
    (∀ s, Event.onStart s ∉ (m.Update w).trace ∧ Event.onStop s ∉ (m.Update w).trace) ∧
    (m.Update w).machine.GetCurrentState = m.GetCurrentState := by
  rw [update_idles m w w1 u hpass hupd]
  refine ⟨rfl, ?_, rfl, ?_, rfl⟩
  · simp only [List.filter_append, falseEvents_filter_isCallback]
    rfl
  · intro s
    constructor <;>
    · intro hs
      rcases List.mem_append.mp hs with h | h
      · obtain ⟨j, hj, _, _⟩ := mem_falseEvents _ _ _ _ h
        cases hj
      · simp at h

/-- Witness of C3 on `demoIdle`: both conditions return false, then the update callback
of `A` (tag 11) runs. -/
theorem update_no_fire_witness :
    (demoIdle.Update []).threw = false ∧
    (demoIdle.Update []).trace.filter Event.isCallback = [Event.onUpdate Demo.A] ∧
    (demoIdle.Update []).world = [(1, Demo.A), (2, Demo.A), (11, Demo.A)] ∧
    (∀ s, Event.onStart s ∉ (demoIdle.Update []).trace ∧
      Event.onStop s ∉ (demoIdle.Update []).trace) ∧
    (demoIdle.Update []).machine.GetCurrentState = Demo.A :=
  update_no_fire demoIdle [] [(1, Demo.A), (2, Demo.A)] (fun cur w => w ++ [(11, cur)])
    rfl rfl

/-- C4, conditions behind the firing one are not evaluated.  On a machine a caller can
hold, when the transition at position `i = pre.length` of the current state's vector
fires (the conditions before it return false, each in the world left by the previous
one, and its own returns true), the condition evaluations of the call are exactly
those at positions `0, ..., i`, each once and in this order; no condition at a position
behind `i` is evaluated, and the world after the call is the one left by the condition
at `i`, passed through the exit and the entry callback: the transitions `post` behind
`i` have no part in it. -/
theorem update_conditions_evaluated (startState : T) (m : StateMachine T W)
    (hreach : Reachable startState m) (w w1 : W)
    (pre post : List (TransitionContext T W)) (t : TransitionContext T W)
    (c : T → W → Bool × W) (f g : T → W → W)
    (hlist : (m.descriptor m.mCurrentState).transitions = pre ++ t :: post)
    (hpre : passes m.mCurrentState pre w = some w1)
    (hcond : t.condition = some c) (htrue : (c m.mCurrentState w1).1 = true)
    (hstop : (m.descriptor m.mCurrentState).onStop = some f)
    (hstart : (m.descriptor t.to_).onStart = some g) :
    (m.Update w).trace.filter Event.isCondition =
      (List.range pre.length).map (fun j => Event.condition m.mCurrentState j false) ++
        [Event.condition m.mCurrentState pre.length true] ∧
    (∀ s j b, pre.length < j → Event.condition s j b ∉ (m.Update w).trace) ∧
    (m.Update w).world = g t.to_ (f m.mCurrentState (c m.mCurrentState w1).2) ∧
    (m.Update w).machine.GetCurrentState = t.to_ := by
  have hno := noSelfTarget_of_reachable hreach m.mCurrentState
  rw [hlist] at hno
  have hto : t.to_ ≠ m.mCurrentState := hno t (by simp)
  have hpreNo : ∀ u ∈ pre, u.to_ ≠ m.mCurrentState := fun u hu => hno u (by simp [hu])
  rw [update_fires m w w1 pre post t c f g hlist hpre hto hcond htrue hstop hstart]
  refine ⟨?_, ?_, rfl, rfl⟩
  · rw [List.filter_append, falseEvents_filter_isCondition,
      falseEvents_eq_range m.mCurrentState pre hpreNo 0]
    simp only [Nat.zero_add]
    rfl
  · intro s j b hj hs
    rcases List.mem_append.mp hs with h | h
    · obtain ⟨k, hk, _, h2⟩ := mem_falseEvents _ _ _ _ h
      cases hk
      omega
    · simp only [List.mem_cons, Event.condition.injEq, List.mem_singleton, reduceCtorEq,
        or_false, List.not_mem_nil] at h
      omega

/-- Witness of C4 on `demoScan`, whose vector for state `0` is `[0 → 1 (false), 0 → 2
(true), 0 → 3 (true)]`: the transition at position 1 fires, the conditions at positions
0 and 1 are evaluated in this order, and the condition at position 2, which would
return true and write tag 3, is not evaluated: no event for it, no tag 3 in the world. -/
theorem update_conditions_evaluated_witness :
    (demoScan.descriptor demoScan.mCurrentState).transitions =
      [⟨1, tagged 1 false⟩] ++ ⟨2, tagged 2 true⟩ :: [⟨3, tagged 3 true⟩] ∧
    (demoScan.Update []).trace.filter Event.isCondition =
      [Event.condition 0 0 false, Event.condition 0 1 true] ∧
    (∀ s j b, 1 < j → Event.condition s j b ∉ (demoScan.Update []).trace) ∧
    (demoScan.Update []).world = [1, 2, 100, 200] ∧
    (demoScan.Update []).machine.GetCurrentState = 2 :=
  ⟨rfl,
    update_conditions_evaluated 0 demoScan
      (Reachable.register (.AddTransition 0 3 (tagged 3 true))
        (Reachable.register (.AddTransition 0 2 (tagged 2 true))
          (Reachable.register (.AddTransition 0 1 (tagged 1 false))
            (Reachable.register (.AddOnStart 2 (stamp 200))
              (Reachable.register (.AddOnStop 0 (stamp 100))
                Reachable.ctor)))))
      [] [1] [⟨1, tagged 1 false⟩] [⟨3, tagged 3 true⟩]
      ⟨2, tagged 2 true⟩ (fun _ w => (true, w ++ [2]))
      (fun _ w => w ++ [100]) (fun _ w => w ++ [200])
      rfl rfl rfl rfl rfl rfl⟩

end Step

/-! ## Registration: claims C5 to C7 and C10 -/

section Registering

variable {T W : Type} [DecidableEq T]

theorem transitionExists_iff (to_ : T) (ts : List (TransitionContext T W)) :
    TransitionExists to_ ts = true ↔ ∃ t ∈ ts, t.to_ = to_ := by
  induction ts with
  | nil => simp [TransitionExists]
  | cons t ts ih =>
    by_cases h : t.to_ = to_
    · simp [TransitionExists, h]
    · simp [TransitionExists, h, ih]

/-- C5, duplicate transition rejection.  When the vector of `A` already holds a
transition with target `B`, `AddTransition(A, B, cond2)` returns the machine unchanged
whatever `cond2` is; in particular the vector of `A` is the same list, with the same
conditions in the same order. -/
theorem addTransition_duplicate (m : StateMachine T W) (A B : T) (cond2 : Condition T W)
    (h : ∃ t ∈ (m.descriptor A).transitions, t.to_ = B) :
    m.AddTransition A B cond2 = m ∧
    ((m.AddTransition A B cond2).descriptor A).transitions = (m.descriptor A).transitions := by
  have key : m.AddTransition A B cond2 = m := by
    unfold StateMachine.AddTransition
    by_cases hAB : A = B
    · rw [if_pos hAB]
    · rw [if_neg hAB]
      simp only [deref_index]
      have hex : TransitionExists B (deref m.mStateContexts A).transitions = true :=
        (transitionExists_iff B _).mpr h
      rw [if_pos hex]
      cases hA : m.mStateContexts A with
      | some c => rw [index_of_some hA]
      | none =>
        obtain ⟨t, ht, _⟩ := h
        simp [StateMachine.descriptor, deref, hA] at ht
  exact ⟨key, by rw [key]⟩

/-- Witness of C5: started in `A`, `AddTransition(A, B, never)` then
`AddTransition(A, B, always)`: the second call changes nothing, the condition of
`A → B` is still `never`, and one `Update` leaves the current state at `A`. -/
theorem addTransition_duplicate_witness :
    (∃ t ∈ (demoDup.descriptor Demo.A).transitions, t.to_ = Demo.B) ∧
    demoDup.AddTransition Demo.A Demo.B always = demoDup ∧
    ((demoDup.AddTransition Demo.A Demo.B always).descriptor Demo.A).transitions =
      [⟨Demo.B, never⟩] ∧
    ((demoDup.AddTransition Demo.A Demo.B always).Update []).machine.GetCurrentState =
      Demo.A :=
  ⟨⟨⟨Demo.B, never⟩, List.mem_singleton.mpr rfl, rfl⟩,
    (addTransition_duplicate demoDup Demo.A Demo.B always
      ⟨⟨Demo.B, never⟩, List.mem_singleton.mpr rfl, rfl⟩).1,
    rfl, rfl⟩

/-- C6, self-transition is a no-op.  `AddTransition(S, S, cond)` returns the machine
unchanged (mapping and current state), so the vector of `S` is unchanged and a
subsequent `Update` in any world gives the result it gives without the call. -/
theorem addTransition_self (m : StateMachine T W) (S : T) (cond : Condition T W) :
    m.AddTransition S S cond = m ∧
    ((m.AddTransition S S cond).descriptor S).transitions = (m.descriptor S).transitions ∧
    ∀ w, (m.AddTransition S S cond).Update w = m.Update w := by
  have key : m.AddTransition S S cond = m := by
    unfold StateMachine.AddTransition
    rw [if_pos rfl]
  exact ⟨key, by rw [key], fun w => by rw [key]⟩

/-- C7, `AddTransition` appends.  For `frm ≠ to_` with no transition to `to_` in the
vector of `frm`, after `AddTransition(frm, to_, cond)` the vector of `frm` is the old
one followed by the new transition; the entry of `frm` in the mapping holds the old
callbacks (the no-op defaults, with the one-element vector, when `frm` had no
descriptor); the entries of all other states and the current state are unchanged. -/
theorem addTransition_appends (m : StateMachine T W) (frm to_ : T) (cond : Condition T W)
    (hne : frm ≠ to_) (hnew : ∀ t ∈ (m.descriptor frm).transitions, t.to_ ≠ to_) :
    ((m.AddTransition frm to_ cond).descriptor frm).transitions =
      (m.descriptor frm).transitions ++ [{ to_ := to_, condition := cond }] ∧
    (m.AddTransition frm to_ cond).mStateContexts frm =
      some { m.descriptor frm with
        transitions := (m.descriptor frm).transitions ++ [{ to_ := to_, condition := cond }] } ∧
    (m.mStateContexts frm = none →
      (m.AddTransition frm to_ cond).mStateContexts frm =
        some { onStart := some (fun _ x => x), onUpdate := some (fun _ x => x),
               onStop := some (fun _ x => x),
               transitions := [{ to_ := to_, condition := cond }] }) ∧
    ((m.AddTransition frm to_ cond).descriptor frm).onStart = (m.descriptor frm).onStart ∧
    ((m.AddTransition frm to_ cond).descriptor frm).onUpdate = (m.descriptor frm).onUpdate ∧
    ((m.AddTransition frm to_ cond).descriptor frm).onStop = (m.descriptor frm).onStop ∧
    (∀ s, s ≠ frm →
      (m.AddTransition frm to_ cond).mStateContexts s = m.mStateContexts s) ∧
    (m.AddTransition frm to_ cond).GetCurrentState = m.GetCurrentState := by
  have hex : ¬ TransitionExists to_ (deref m.mStateContexts frm).transitions = true := by
    rw [transitionExists_iff]
    rintro ⟨t, ht, he⟩
    exact hnew t ht he
  have hd := descriptor_AddTransition m frm to_ cond frm
  rw [if_neg (by push_neg; exact ⟨hne, hex, rfl⟩)] at hd
  have hmap : (m.AddTransition frm to_ cond).mStateContexts =
      store (index (index m.mStateContexts frm) frm) frm
        { m.descriptor frm with
          transitions := (m.descriptor frm).transitions ++ [{ to_ := to_, condition := cond }] } := by
    unfold StateMachine.AddTransition
    rw [if_neg hne]
    simp only [deref_index]
    rw [if_neg hex]
    rfl
  refine ⟨by rw [hd], ?_, ?_, by rw [hd], by rw [hd], by rw [hd], ?_, ?_⟩
  · rw [hmap]; simp [store]
  · intro hnone
    rw [hmap]
    simp [store, StateMachine.descriptor, deref, hnone]
  · intro s hs
    rw [hmap, store_apply_ne _ _ hs, index_apply_ne _ hs, index_apply_ne _ hs]
  · unfold StateMachine.AddTransition StateMachine.GetCurrentState
    rw [if_neg hne]
    simp only [deref_index]
    rw [if_neg hex]

/-- Witness of C7: `AddTransition(A, C, always)` on `demoDup`, whose vector for `A` is
`[A → B]`; and `AddTransition(B, C, always)`, `B` having no descriptor. -/
theorem addTransition_appends_witness :
    ((demoDup.AddTransition Demo.A Demo.C always).descriptor Demo.A).transitions =
      [⟨Demo.B, never⟩, ⟨Demo.C, always⟩] ∧
    demoDup.mStateContexts Demo.B = none ∧
    (demoDup.AddTransition Demo.B Demo.C always).mStateContexts Demo.B =
      some { onStart := some (fun _ x => x), onUpdate := some (fun _ x => x),
             onStop := some (fun _ x => x),
             transitions := [{ to_ := Demo.C, condition := always }] } :=
  ⟨(addTransition_appends demoDup Demo.A Demo.C always (by decide)
      (fun t ht => by
        rw [show t = ⟨Demo.B, never⟩ from List.mem_singleton.mp ht]
        decide)).1,
    rfl,
    (addTransition_appends demoDup Demo.B Demo.C always (by decide)
      (fun t ht => absurd ht (List.not_mem_nil t))).2.2.1 rfl⟩

/-- C10, initial state.  Whatever registration calls are applied, in whatever order and with
whatever arguments, to the machine constructed with start state `s`, `GetCurrentState`
returns `s`; in particular on the machine just constructed. -/
theorem getCurrentState_initial (s : T) (calls : List (Registration T W)) :
    (calls.foldl StateMachine.register (StateMachine.ctor s : StateMachine T W)).GetCurrentState
      = s ∧
    (StateMachine.ctor s : StateMachine T W).GetCurrentState = s := by
  refine ⟨?_, rfl⟩
  have gen : ∀ (m : StateMachine T W),
      (calls.foldl StateMachine.register m).mCurrentState = m.mCurrentState := by
    induction calls with
    | nil => intro m; rfl
    | cons r rs ih =>
      intro m
      rw [List.foldl_cons, ih, mCurrentState_register]
  exact gen _

end Registering

/-! ## States without transitions: claims C8 and C9 -/

section Steady

variable {T W : Type} [DecidableEq T]

theorem updateN_steady_aux (S : T) (u : T → W → W) (n : Nat) :
    ∀ (m : StateMachine T W) (w : W), m.mCurrentState = S →
      (m.descriptor S).transitions = [] → (m.descriptor S).onUpdate = some u →
      (UpdateN n m w).threw = false ∧
      (UpdateN n m w).trace = List.replicate n (Event.onUpdate S) ∧
      (UpdateN n m w).world = (u S)^[n] w ∧
      (UpdateN n m w).machine.mCurrentState = S := by
  induction n with
  | zero => intro m w hS _ _; exact ⟨rfl, rfl, rfl, hS⟩
  | succ n ih =>
    intro m w hS hts hupd
    subst hS
    have hU := update_idles m w w u (by rw [hts]; rfl) hupd
    rw [hts] at hU
    obtain ⟨h1, h2, h3, h4⟩ := ih (m.Update w).machine (m.Update w).world
      (by rw [hU]) (by rw [descriptor_Update, hts]) (by rw [descriptor_Update, hupd])
    have hthrew : (m.Update w).threw = false := by rw [hU]
    have hUN : UpdateN (n + 1) m w =
        { UpdateN n (m.Update w).machine (m.Update w).world with
          trace := (m.Update w).trace ++
            (UpdateN n (m.Update w).machine (m.Update w).world).trace } := by
      rw [UpdateN]
      simp [hthrew]
    rw [hUN]
    refine ⟨h1, ?_, ?_, h4⟩
    · simp only [h2]
      rw [hU]
      simp [falseEvents, List.replicate_succ]
    · simp only [h3]
      rw [hU, Function.iterate_succ_apply]

/-- C8, idempotent steady state.  When the current state `S` has no outgoing transition
(empty vector, or no descriptor) and its update callback is callable, `N` consecutive
calls of `Update` all return, the events of the `N` calls are exactly `N` invocations
of the update callback of `S` (no condition, no other callback), the world is the
`N`-fold image under that callback, and after each of the `N` calls `GetCurrentState`
is `S`. -/
theorem updateN_steady (m : StateMachine T W) (w : W) (u : T → W → W) (N : Nat)
    (hempty : (m.descriptor m.mCurrentState).transitions = [])
    (hupd : (m.descriptor m.mCurrentState).onUpdate = some u) :
    (UpdateN N m w).threw = false ∧
    (UpdateN N m w).trace = List.replicate N (Event.onUpdate m.mCurrentState) ∧
    (UpdateN N m w).world = (u m.mCurrentState)^[N] w ∧
    ∀ k, k ≤ N → (UpdateN k m w).threw = false ∧
      (UpdateN k m w).machine.GetCurrentState = m.mCurrentState := by
  obtain ⟨h1, h2, h3, _⟩ := updateN_steady_aux m.mCurrentState u N m w rfl hempty hupd
  refine ⟨h1, h2, h3, fun k _ => ?_⟩
  obtain ⟨k1, _, _, k4⟩ := updateN_steady_aux m.mCurrentState u k m w rfl hempty hupd
  exact ⟨k1, k4⟩

/-- Witness of C8: three calls on `demoSteady` invoke the update callback of `A` (tag 11)
three times and nothing else. -/
theorem updateN_steady_witness :
    (UpdateN 3 demoSteady []).threw = false ∧
    (UpdateN 3 demoSteady []).trace =
      [Event.onUpdate Demo.A, Event.onUpdate Demo.A, Event.onUpdate Demo.A] ∧
    (UpdateN 3 demoSteady []).world = [(11, Demo.A), (11, Demo.A), (11, Demo.A)] ∧
    ∀ k, k ≤ 3 → (UpdateN k demoSteady []).threw = false ∧
      (UpdateN k demoSteady []).machine.GetCurrentState = Demo.A :=
  updateN_steady demoSteady [] (fun cur w => w ++ [(11, cur)]) 3 rfl rfl

/-- C9, unregistered state safety.  When the current state has no descriptor in the
mapping, `Update` returns; the only callable it invokes is the update callback of the
descriptor that `operator[]` has just default-constructed, so the world is unchanged;
the current state is unchanged; afterwards the mapping holds for that state a
descriptor with the three no-op callbacks and an empty vector, and the entries of the
other states are unchanged. -/
theorem update_unregistered (m : StateMachine T W) (w : W)
    (h : m.mStateContexts m.mCurrentState = none) :
    (m.Update w).threw = false ∧
    (m.Update w).world = w ∧
    (m.Update w).trace = [Event.onUpdate m.mCurrentState] ∧
    (m.Update w).machine.GetCurrentState = m.GetCurrentState ∧
    (m.Update w).machine.mStateContexts m.mCurrentState =
      some { onStart := some (fun _ x => x), onUpdate := some (fun _ x => x),
             onStop := some (fun _ x => x), transitions := [] } ∧
    ∀ s, s ≠ m.mCurrentState →
      (m.Update w).machine.mStateContexts s = m.mStateContexts s := by
  have hd : m.descriptor m.mCurrentState = {} := by
    simp [StateMachine.descriptor, deref, h]
  have hU := update_idles m w w (fun _ x => x) (by rw [hd]; rfl) (by rw [hd])
  rw [hd] at hU
  rw [hU]
  refine ⟨rfl, rfl, rfl, rfl, ?_, ?_⟩
  · simp only [index_apply_self, deref, h]
    rfl
  · intro s hs
    exact index_apply_ne _ hs

/-- Witness of C9: `demoUnregistered` starts in `C`, which was never registered. -/
theorem update_unregistered_witness :
    demoUnregistered.mStateContexts demoUnregistered.mCurrentState = none ∧
    (demoUnregistered.Update [(7, Demo.A)]).threw = false ∧
    (demoUnregistered.Update [(7, Demo.A)]).world = [(7, Demo.A)] ∧
    (demoUnregistered.Update [(7, Demo.A)]).machine.GetCurrentState = Demo.C :=
  have h := update_unregistered demoUnregistered [(7, Demo.A)] rfl
  ⟨rfl, h.1, h.2.1, h.2.2.2.1⟩

end Steady

/-! ## The example scenario: claim C11 -/

/-- C11, example scenario.  On the machine `scenario` (start `Idle`, `Idle → Running`
when started, `Running → Done` when the progress is at least 100): the tick with
`started = false` stays in `Idle` with callback trace `[Idle.onUpdate]`; after
`started = true` the tick moves to `Running` with callback trace `[Idle.onExit,
Running.onEnter]` and no update callback; with `progress = 50` the tick stays in
`Running` with callback trace `[Running.onUpdate]`; with `progress = 100` the tick moves
to `Done` with callback trace `[Running.onExit, Done.onEnter]`.  No tick throws, and the
log written by the callbacks shows that these and only these callbacks ran. -/
theorem scenario_four_ticks :
    (tick1.machine.GetCurrentState = Phase.Idle ∧
      tick1.trace.filter Event.isCallback = [Event.onUpdate Phase.Idle] ∧
      tick1.threw = false) ∧
    (tick2.machine.GetCurrentState = Phase.Running ∧
      tick2.trace.filter Event.isCallback =
        [Event.onStop Phase.Idle, Event.onStart Phase.Running] ∧
      tick2.threw = false) ∧
    (tick3.machine.GetCurrentState = Phase.Running ∧
      tick3.trace.filter Event.isCallback = [Event.onUpdate Phase.Running] ∧
      tick3.threw = false) ∧
    (tick4.machine.GetCurrentState = Phase.Done ∧
      tick4.trace.filter Event.isCallback =
        [Event.onStop Phase.Running, Event.onStart Phase.Done] ∧
      tick4.threw = false) ∧
    tick4.world.log =
      [(11, Phase.Idle), (12, Phase.Idle), (20, Phase.Running), (21, Phase.Running),
        (22, Phase.Running), (30, Phase.Done)] := by
  refine ⟨⟨?_, ?_, ?_⟩, ⟨?_, ?_, ?_⟩, ⟨?_, ?_, ?_⟩, ⟨?_, ?_, ?_⟩, ?_⟩ <;> rfl

/-! ## Invariants of the machines a caller can hold: claims C12 to C14 -/

section Invariants

variable {T W : Type} [DecidableEq T]

theorem reachable_demoFire : Reachable Demo.A demoFire :=
  Reachable.register (.AddTransition Demo.A Demo.A (guard 4 true))
    (Reachable.register (.AddTransition Demo.A Demo.C (guard 3 true))
      (Reachable.register (.AddTransition Demo.A Demo.B (guard 2 true))
        (Reachable.register (.AddTransition Demo.A Demo.C (guard 1 false))
          (Reachable.register (.AddStateContext Demo.B (note 20) (note 21) (note 22))
            (Reachable.register (.AddStateContext Demo.A (note 10) (note 11) (note 12))
              Reachable.ctor)))))

theorem uniqueTargets_register (m : StateMachine T W) (r : Registration T W)
    (h : UniqueTargets m) : UniqueTargets (m.register r) := by
  intro s
  by_cases hr : ∀ frm to_ c, r ≠ Registration.AddTransition frm to_ c
  · rw [transitions_register_of_not_AddTransition m r hr s]
    exact h s
  · push_neg at hr
    obtain ⟨frm, to_, c, rfl⟩ := hr
    simp only [StateMachine.register, descriptor_AddTransition]
    split
    · exact h s
    · next hcase =>
      push_neg at hcase
      obtain ⟨_, hex, hs⟩ := hcase
      subst hs
      rw [List.map_append, List.nodup_append]
      refine ⟨h s, List.nodup_singleton _, ?_⟩
      intro a ha hb
      rw [List.map_singleton, List.mem_singleton] at hb
      obtain ⟨t, ht, hta⟩ := List.mem_map.mp ha
      exact hex ((transitionExists_iff to_ _).mpr ⟨t, ht, hta.trans hb⟩)

theorem uniqueTargets_of_reachable {startState : T} {m : StateMachine T W}
    (h : Reachable startState m) : UniqueTargets m := by
  induction h with
  | ctor =>
    intro s
    simp [StateMachine.descriptor, StateMachine.ctor, deref]
  | register r _ ih => exact uniqueTargets_register _ r ih
  | update w _ ih =>
    intro s
    rw [descriptor_Update]
    exact ih s

/-- C12, unique-target invariant.  In every machine obtained from the constructor by
registration calls and calls of `Update`, the targets of the transitions in the vector
of each state are pairwise distinct. -/
theorem unique_targets (startState : T) (m : StateMachine T W)
    (hreach : Reachable startState m) (s : T) :
    ((m.descriptor s).transitions.map (fun t => t.to_)).Nodup :=
  uniqueTargets_of_reachable hreach s

/-- Witness of C12 on `demoFire`, built with two calls `AddTransition(A, C, _)`: the
targets in the vector of `A` are `[C, B]`. -/
theorem unique_targets_witness :
    (demoFire.descriptor Demo.A).transitions.map (fun t => t.to_) = [Demo.C, Demo.B] ∧
    ((demoFire.descriptor Demo.A).transitions.map (fun t => t.to_)).Nodup :=
  ⟨rfl, unique_targets Demo.A demoFire reachable_demoFire Demo.A⟩

theorem switchToState_outcome (m : StateMachine T W) (w : W) (t : TransitionContext T W) :
    ((m.SwitchToState w t).machine.mCurrentState = m.mCurrentState ∧
      (m.SwitchToState w t).trace = [] ∧ (m.SwitchToState w t).threw = true) ∨
    (m.SwitchToState w t).machine.mCurrentState = t.to_ := by
  unfold StateMachine.SwitchToState
  simp only
  split
  · exact Or.inl ⟨rfl, rfl, rfl⟩
  · split <;> exact Or.inr rfl

theorem scan_outcome (m : StateMachine T W) (ts : List (TransitionContext T W)) :
    ∀ (i : Nat) (w : W),
      ((m.scan ts i w).machine.mCurrentState = m.mCurrentState ∧
        (∀ x, Event.onStop x ∉ (m.scan ts i w).trace) ∧
        ((m.scan ts i w).threw = false →
          ∀ x j, Event.condition x j true ∉ (m.scan ts i w).trace)) ∨
      ∃ t ∈ ts, t.to_ ≠ m.mCurrentState ∧ (m.scan ts i w).machine.mCurrentState = t.to_ := by
  induction ts with
  | nil =>
    intro i w
    left
    unfold StateMachine.scan
    simp only
    split <;> simp
  | cons t ts ih =>
    intro i w
    have lift : ∀ (r : Result T W),
        ((r.machine.mCurrentState = m.mCurrentState ∧ (∀ x, Event.onStop x ∉ r.trace) ∧
          (r.threw = false → ∀ x j, Event.condition x j true ∉ r.trace)) ∨
          ∃ u ∈ ts, u.to_ ≠ m.mCurrentState ∧ r.machine.mCurrentState = u.to_) →
        ((r.machine.mCurrentState = m.mCurrentState ∧ (∀ x, Event.onStop x ∉ r.trace) ∧
          (r.threw = false → ∀ x j, Event.condition x j true ∉ r.trace)) ∨
          ∃ u ∈ t :: ts, u.to_ ≠ m.mCurrentState ∧ r.machine.mCurrentState = u.to_) := by
      intro r hr
      rcases hr with h | ⟨u, hu, h1, h2⟩
      · exact Or.inl h
      · exact Or.inr ⟨u, List.mem_cons_of_mem _ hu, h1, h2⟩
    by_cases hself : m.mCurrentState = t.to_
    · rw [scan_cons_skip m t ts i w hself]
      exact lift _ (ih _ _)
    · cases hc : t.condition with
      | none =>
        left
        rw [StateMachine.scan, if_neg hself]
        simp [hc]
      | some c =>
        by_cases hb : (c m.mCurrentState w).1 = false
        · rw [scan_cons_false m t ts i w c hself hc hb]
          rcases ih (i + 1) (c m.mCurrentState w).2 with ⟨h1, h2, h3⟩ | ⟨u, hu, h1, h2⟩
          · left
            refine ⟨h1, ?_, ?_⟩
            · intro x hx
              simp only [Result.logged, List.mem_cons, reduceCtorEq, false_or] at hx
              exact h2 x hx
            · intro hth x j hx
              simp only [Result.logged, List.mem_cons, Event.condition.injEq,
                Bool.true_eq_false, and_false, false_or] at hx
              exact h3 hth x j hx
          · exact Or.inr ⟨u, List.mem_cons_of_mem _ hu, h1, h2⟩
        · have hb2 : (c m.mCurrentState w).1 = true := by simpa using hb
          rw [scan_cons_true m t ts i w c hself hc hb2]
          rcases switchToState_outcome m (c m.mCurrentState w).2 t with ⟨h1, h2, h3⟩ | h
          · left
            refine ⟨h1, ?_, ?_⟩
            · intro x hx
              simp [Result.logged, h2] at hx
            · intro hth
              simp [Result.logged, h3] at hth
          · exact Or.inr ⟨t, List.mem_cons_self _ _, fun e => hself e.symm, h⟩

theorem update_outcome (m : StateMachine T W) (w : W) :
    ((m.Update w).machine.mCurrentState = m.mCurrentState ∧
      (∀ x, Event.onStop x ∉ (m.Update w).trace) ∧
      ((m.Update w).threw = false →
        ∀ x j, Event.condition x j true ∉ (m.Update w).trace)) ∨
    ∃ t ∈ (m.descriptor m.mCurrentState).transitions,
      t.to_ ≠ m.mCurrentState ∧ (m.Update w).machine.mCurrentState = t.to_ := by
  have h := scan_outcome
    ({ m with mStateContexts := index m.mStateContexts m.mCurrentState } : StateMachine T W)
    (deref m.mStateContexts m.mCurrentState).transitions 0 w
  simpa only [StateMachine.Update, deref_index, StateMachine.descriptor] using h

/-- C13 as amended: with callbacks and conditions that do not re-enter the machine (the
callables of `StateMachine`).  In every machine obtained from the constructor by
registration calls and calls of `Update`, no transition in the vector of a state
targets that state; and whenever a transition fires in a call of `Update` (the exit
callback has been invoked; or, for a call that returns, a condition has returned
true), the current state after the call differs from the current state before it. -/
theorem no_self_transition (startState : T) (m : StateMachine T W)
    (hreach : Reachable startState m) :
    (∀ s, ∀ t ∈ (m.descriptor s).transitions, t.to_ ≠ s) ∧
    ∀ w,
      ((∃ x, Event.onStop x ∈ (m.Update w).trace) →
        (m.Update w).machine.GetCurrentState ≠ m.GetCurrentState) ∧
      ((m.Update w).threw = false →
        (∃ x j, Event.condition x j true ∈ (m.Update w).trace) →
        (m.Update w).machine.GetCurrentState ≠ m.GetCurrentState) := by
  refine ⟨noSelfTarget_of_reachable hreach, fun w => ⟨?_, ?_⟩⟩
  · rintro ⟨x, hx⟩
    rcases update_outcome m w with ⟨_, h2, _⟩ | ⟨t, _, h1, h2⟩
    · exact absurd hx (h2 x)
    · simp only [StateMachine.GetCurrentState]
      rw [h2]
      exact h1
  · rintro hth ⟨x, j, hx⟩
    rcases update_outcome m w with ⟨_, _, h3⟩ | ⟨t, _, h1, h2⟩
    · exact absurd hx (h3 hth x j)
    · simp only [StateMachine.GetCurrentState]
      rw [h2]
      exact h1

/-- Witness of the amended C13 on `demoFire`: the vector of `A` is free of `A` although
`AddTransition(A, A, _)` was called, and the tick that fires `A → B` leaves `A`. -/
theorem no_self_transition_witness :
    (∀ t ∈ (demoFire.descriptor Demo.A).transitions, t.to_ ≠ Demo.A) ∧
    Event.onStop Demo.A ∈ (demoFire.Update []).trace ∧
    (demoFire.Update []).machine.GetCurrentState ≠ demoFire.GetCurrentState :=
  have h := no_self_transition Demo.A demoFire reachable_demoFire
  ⟨h.1 Demo.A, by decide, (h.2 []).1 ⟨Demo.A, by decide⟩⟩

theorem run_append (startState : T) (calls : List (Call T W)) (c : Call T W) :
    run startState (calls ++ [c]) = (run startState calls).call c := by
  simp [run, List.foldl_append]

theorem reachable_run (startState : T) (calls : List (Call T W)) :
    Reachable startState (run startState calls) := by
  induction calls using List.reverseRecOn with
  | nil => exact Reachable.ctor
  | append_singleton l c ih =>
    rw [run_append]
    cases c with
    | register r => exact Reachable.register r ih
    | update w => exact Reachable.update w ih

theorem transitions_AddTransition (m : StateMachine T W) (frm to_ : T) (c : Condition T W)
    (j : T) :
    ((m.AddTransition frm to_ c).descriptor j).transitions = (m.descriptor j).transitions ∨
    (j = frm ∧ ((m.AddTransition frm to_ c).descriptor j).transitions =
      (m.descriptor j).transitions ++ [{ to_ := to_, condition := c }]) := by
  rw [descriptor_AddTransition]
  split
  · exact Or.inl rfl
  · next hcase =>
    push_neg at hcase
    obtain ⟨_, _, hj⟩ := hcase
    subst hj
    exact Or.inr ⟨rfl, rfl⟩

theorem transitions_register (m : StateMachine T W) (r : Registration T W) (j : T) :
    ((m.register r).descriptor j).transitions = (m.descriptor j).transitions ∨
    ∃ to_ c, r = Registration.AddTransition j to_ c ∧
      ((m.register r).descriptor j).transitions =
        (m.descriptor j).transitions ++ [{ to_ := to_, condition := c }] := by
  by_cases hr : ∀ frm to_ c, r ≠ Registration.AddTransition frm to_ c
  · exact Or.inl (transitions_register_of_not_AddTransition m r hr j)
  · push_neg at hr
    obtain ⟨frm, to_, c, rfl⟩ := hr
    rcases transitions_AddTransition m frm to_ c j with h | ⟨hj, h⟩
    · exact Or.inl h
    · subst hj
      exact Or.inr ⟨to_, c, rfl, h⟩

theorem edge_register (m : StateMachine T W) (r : Registration T W) (a b : T)
    (h : Edge m a b) : Edge (m.register r) a b := by
  obtain ⟨t, ht, hb⟩ := h
  refine ⟨t, ?_, hb⟩
  rcases transitions_register m r a with h | ⟨_, _, _, h⟩
  · rw [h]; exact ht
  · rw [h]; exact List.mem_append_left _ ht

theorem edge_update (m : StateMachine T W) (w : W) (a b : T) (h : Edge m a b) :
    Edge (m.Update w).machine a b := by
  obtain ⟨t, ht, hb⟩ := h
  exact ⟨t, by rw [descriptor_Update]; exact ht, hb⟩

theorem path_run (startState : T) (calls : List (Call T W)) :
    Relation.ReflTransGen (Edge (run startState calls)) startState
      (run startState calls).mCurrentState := by
  induction calls using List.reverseRecOn with
  | nil => exact Relation.ReflTransGen.refl
  | append_singleton l c ih =>
    rw [run_append]
    cases c with
    | register r =>
      simp only [StateMachine.call, mCurrentState_register]
      exact Relation.ReflTransGen.mono (edge_register _ r) ih
    | update w =>
      simp only [StateMachine.call]
      have ih2 := Relation.ReflTransGen.mono (edge_update (run startState l) w) ih
      rcases update_outcome (run startState l) w with ⟨h, _, _⟩ | ⟨t, ht, _, h⟩
      · rw [h]; exact ih2
      · rw [h]
        exact Relation.ReflTransGen.tail ih2
          (edge_update _ w _ _ ⟨t, ht, rfl⟩)

theorem transition_history (startState : T) (calls : List (Call T W)) :
    ∀ (a : T) (t : TransitionContext T W),
      t ∈ ((run startState calls).descriptor a).transitions →
      ∃ before after,
        calls = before ++ Call.register (.AddTransition a t.to_ t.condition) :: after ∧
        (((run startState before).AddTransition a t.to_ t.condition).descriptor a).transitions =
          ((run startState before).descriptor a).transitions ++ [t] := by
  induction calls using List.reverseRecOn with
  | nil =>
    intro a t ht
    simp [run, StateMachine.descriptor, StateMachine.ctor, deref] at ht
  | append_singleton l c ih =>
    intro a t ht
    rw [run_append] at ht
    have old : t ∈ ((run startState l).descriptor a).transitions →
        ∃ before after,
          l ++ [c] = before ++ Call.register (.AddTransition a t.to_ t.condition) :: after ∧
          (((run startState before).AddTransition a t.to_ t.condition).descriptor a).transitions =
            ((run startState before).descriptor a).transitions ++ [t] := by
      intro h
      obtain ⟨before, after, h1, h2⟩ := ih a t h
      exact ⟨before, after ++ [c], by rw [h1]; simp, h2⟩
    cases c with
    | update w =>
      simp only [StateMachine.call, descriptor_Update] at ht
      exact old ht
    | register r =>
      simp only [StateMachine.call] at ht
      rcases transitions_register (run startState l) r a with h | ⟨to_, c, hr, h⟩
      · rw [h] at ht
        exact old ht
      · rw [h] at ht
        rcases List.mem_append.mp ht with ht | ht
        · exact old ht
        · have ht2 := List.mem_singleton.mp ht
          subst ht2
          subst hr
          exact ⟨l, [], rfl, h⟩

/-- C14, the current state was supplied earlier.  After any finite sequence of
registration calls and calls of `Update` on the machine constructed with start state
`s`, the current state is reachable from `s` along transitions present in the mapping;
and it is `s` or the `to` argument of an earlier call of `AddTransition` that appended
its transition to the vector of its source. -/
theorem current_state_supplied (s : T) (calls : List (Call T W)) :
    Relation.ReflTransGen (Edge (run s calls)) s (run s calls).GetCurrentState ∧
    ((run s calls).GetCurrentState = s ∨
      ∃ before after frm cond,
        calls = before ++
          Call.register (.AddTransition frm (run s calls).GetCurrentState cond) :: after ∧
        (((run s before).AddTransition frm (run s calls).GetCurrentState cond).descriptor
            frm).transitions =
          ((run s before).descriptor frm).transitions ++
            [{ to_ := (run s calls).GetCurrentState, condition := cond }]) := by
  refine ⟨path_run s calls, ?_⟩
  rcases Relation.ReflTransGen.cases_tail (path_run s calls) with h | ⟨b, _, t, ht, hb⟩
  · exact Or.inl h
  · right
    obtain ⟨before, after, h1, h2⟩ := transition_history s calls b t ht
    simp only [StateMachine.GetCurrentState]
    rw [← hb]
    exact ⟨before, after, b, t.condition, h1, h2⟩

end Invariants

/-! ## The callback setters: claims C15 to C17 -/

section Setters

variable {T W : Type} [DecidableEq T]

theorem store_index (mp : T → Option (StateContext T W)) (k : T) (c : StateContext T W) :
    store (index mp k) k c = store mp k c := by
  funext j
  by_cases h : j = k
  · simp [store, h]
  · simp [store, h, index_apply_ne mp h]

theorem store_store (mp : T → Option (StateContext T W)) (k : T) (c d : StateContext T W) :
    store (store mp k c) k d = store mp k d := by
  funext j
  by_cases h : j = k <;> simp [store, h]

theorem mStateContexts_AddOnStart (m : StateMachine T W) (state : T) (a : Action T W) :
    (m.AddOnStart state a).mStateContexts =
      store m.mStateContexts state { m.descriptor state with onStart := a } := by
  simp only [StateMachine.AddOnStart, store_index, deref_index, StateMachine.descriptor]

theorem mStateContexts_AddOnUpdate (m : StateMachine T W) (state : T) (a : Action T W) :
    (m.AddOnUpdate state a).mStateContexts =
      store m.mStateContexts state { m.descriptor state with onUpdate := a } := by
  simp only [StateMachine.AddOnUpdate, store_index, deref_index, StateMachine.descriptor]

theorem mStateContexts_AddOnStop (m : StateMachine T W) (state : T) (a : Action T W) :
    (m.AddOnStop state a).mStateContexts =
      store m.mStateContexts state { m.descriptor state with onStop := a } := by
  simp only [StateMachine.AddOnStop, store_index, deref_index, StateMachine.descriptor]

/-- C15, independent setters.  Each of `AddOnStart`, `AddOnUpdate`, `AddOnStop` leaves in
the mapping, for `state`, the descriptor that was there (the default-constructed one
if there was none) with its own callback replaced by the given action and the other
two callbacks and the vector untouched; the entries of the other states and the
current state are unchanged; and calling the same setter a second time on the same
state gives the machine that the second call alone gives. -/
theorem setters_independent (m : StateMachine T W) (state : T) (a : Action T W) :
    ((m.AddOnStart state a).mStateContexts state =
        some { onStart := a, onUpdate := (m.descriptor state).onUpdate,
               onStop := (m.descriptor state).onStop,
               transitions := (m.descriptor state).transitions } ∧
      (∀ s, s ≠ state → (m.AddOnStart state a).mStateContexts s = m.mStateContexts s) ∧
      (m.AddOnStart state a).GetCurrentState = m.GetCurrentState ∧
      ∀ b, (m.AddOnStart state a).AddOnStart state b = m.AddOnStart state b) ∧
    ((m.AddOnUpdate state a).mStateContexts state =
        some { onStart := (m.descriptor state).onStart, onUpdate := a,
               onStop := (m.descriptor state).onStop,
               transitions := (m.descriptor state).transitions } ∧
      (∀ s, s ≠ state → (m.AddOnUpdate state a).mStateContexts s = m.mStateContexts s) ∧
      (m.AddOnUpdate state a).GetCurrentState = m.GetCurrentState ∧
      ∀ b, (m.AddOnUpdate state a).AddOnUpdate state b = m.AddOnUpdate state b) ∧
    ((m.AddOnStop state a).mStateContexts state =
        some { onStart := (m.descriptor state).onStart,
               onUpdate := (m.descriptor state).onUpdate, onStop := a,
               transitions := (m.descriptor state).transitions } ∧
      (∀ s, s ≠ state → (m.AddOnStop state a).mStateContexts s = m.mStateContexts s) ∧
      (m.AddOnStop state a).GetCurrentState = m.GetCurrentState ∧
      ∀ b, (m.AddOnStop state a).AddOnStop state b = m.AddOnStop state b) := by
  refine ⟨⟨?_, ?_, rfl, ?_⟩, ⟨?_, ?_, rfl, ?_⟩, ⟨?_, ?_, rfl, ?_⟩⟩
  · rw [mStateContexts_AddOnStart]; simp [store]
  · intro s hs; rw [mStateContexts_AddOnStart]; exact store_apply_ne _ _ hs
  · intro b
    refine eq_of_fields ?_ rfl
    simp only [mStateContexts_AddOnStart, store_store, StateMachine.descriptor, deref_store_self]
  · rw [mStateContexts_AddOnUpdate]; simp [store]
  · intro s hs; rw [mStateContexts_AddOnUpdate]; exact store_apply_ne _ _ hs
  · intro b
    refine eq_of_fields ?_ rfl
    simp only [mStateContexts_AddOnUpdate, store_store, StateMachine.descriptor, deref_store_self]
  · rw [mStateContexts_AddOnStop]; simp [store]
  · intro s hs; rw [mStateContexts_AddOnStop]; exact store_apply_ne _ _ hs
  · intro b
    refine eq_of_fields ?_ rfl
    simp only [mStateContexts_AddOnStop, store_store, StateMachine.descriptor, deref_store_self]

/-- C17, `AddStateContext` is the three setters in sequence.  `AddStateContext(state,
onStart, onUpdate, onStop)` gives the machine that `AddOnStart`, then `AddOnUpdate`,
then `AddOnStop` give; the entry of `state` holds the three actions and the vector it
had before; the vector of every state, the entries of the other states and the current
state are unchanged. -/
theorem addStateContext_eq_setters (m : StateMachine T W) (state : T)
    (onStart onUpdate onStop : Action T W) :
    m.AddStateContext state onStart onUpdate onStop =
      ((m.AddOnStart state onStart).AddOnUpdate state onUpdate).AddOnStop state onStop ∧
    (m.AddStateContext state onStart onUpdate onStop).mStateContexts state =
      some { onStart := onStart, onUpdate := onUpdate, onStop := onStop,
             transitions := (m.descriptor state).transitions } ∧
    (∀ s, ((m.AddStateContext state onStart onUpdate onStop).descriptor s).transitions =
      (m.descriptor s).transitions) ∧
    (∀ s, s ≠ state →
      (m.AddStateContext state onStart onUpdate onStop).mStateContexts s =
        m.mStateContexts s) ∧
    (m.AddStateContext state onStart onUpdate onStop).GetCurrentState =
      m.GetCurrentState := by
  refine ⟨rfl, ?_, ?_, ?_, rfl⟩
  · simp only [StateMachine.AddStateContext, mStateContexts_AddOnStop,
      mStateContexts_AddOnUpdate, mStateContexts_AddOnStart, StateMachine.descriptor,
      deref_store_self]
    simp [store]
  · intro s
    exact transitions_register_of_not_AddTransition m
      (.AddStateContext state onStart onUpdate onStop) (fun _ _ _ h => by cases h) s
  · intro s hs
    simp only [StateMachine.AddStateContext, mStateContexts_AddOnStop,
      mStateContexts_AddOnUpdate, mStateContexts_AddOnStart, store_apply_ne _ _ hs]

theorem update_reaches_switch (m : StateMachine T W) (w w1 : W)
    (pre post : List (TransitionContext T W)) (t : TransitionContext T W)
    (c : T → W → Bool × W)
    (hlist : (m.descriptor m.mCurrentState).transitions = pre ++ t :: post)
    (hpre : passes m.mCurrentState pre w = some w1)
    (hto : t.to_ ≠ m.mCurrentState)
    (hcond : t.condition = some c) (htrue : (c m.mCurrentState w1).1 = true) :
    m.Update w =
      (((({ m with mStateContexts := index m.mStateContexts m.mCurrentState } :
          StateMachine T W).SwitchToState (c m.mCurrentState w1).2 t).logged
        (.condition m.mCurrentState pre.length true)).after
        (falseEvents m.mCurrentState 0 pre)) := by
  simp only [StateMachine.descriptor] at hlist
  have hne : ¬ m.mCurrentState = t.to_ := fun e => hto e.symm
  simp only [StateMachine.Update, deref_index, hlist]
  have h1 := scan_passes
    ({ m with mStateContexts := index m.mStateContexts m.mCurrentState } : StateMachine T W)
    pre (t :: post) 0 w w1 hpre
  have h2 := scan_cons_true
    ({ m with mStateContexts := index m.mStateContexts m.mCurrentState } : StateMachine T W)
    t post (0 + pre.length) w1 c hne hcond htrue
  rw [h1, h2, Nat.zero_add]

theorem update_throws_at_onUpdate (m : StateMachine T W) (w w1 : W)
    (hpass : passes m.mCurrentState (m.descriptor m.mCurrentState).transitions w = some w1)
    (hupd : (m.descriptor m.mCurrentState).onUpdate = none) :
    m.Update w =
      { machine := { m with mStateContexts := index m.mStateContexts m.mCurrentState },
        world := w1,
        trace := falseEvents m.mCurrentState 0 (m.descriptor m.mCurrentState).transitions,
        threw := true } := by
  simp only [StateMachine.descriptor] at hpass hupd
  simp only [StateMachine.Update, deref_index, StateMachine.descriptor]
  have h := scan_passes
    ({ m with mStateContexts := index m.mStateContexts m.mCurrentState } : StateMachine T W)
    (deref m.mStateContexts m.mCurrentState).transitions [] 0 w w1 hpass
  rw [List.append_nil] at h
  rw [h]
  simp [StateMachine.scan, Result.after, deref_index, hupd, index_index]

theorem update_throws_at_onStop (m : StateMachine T W) (w w1 : W)
    (pre post : List (TransitionContext T W)) (t : TransitionContext T W)
    (c : T → W → Bool × W)
    (hlist : (m.descriptor m.mCurrentState).transitions = pre ++ t :: post)
    (hpre : passes m.mCurrentState pre w = some w1)
    (hto : t.to_ ≠ m.mCurrentState)
    (hcond : t.condition = some c) (htrue : (c m.mCurrentState w1).1 = true)
    (hstop : (m.descriptor m.mCurrentState).onStop = none) :
    m.Update w =
      { machine := { m with mStateContexts := index m.mStateContexts m.mCurrentState },
        world := (c m.mCurrentState w1).2,
        trace := falseEvents m.mCurrentState 0 pre ++
          [.condition m.mCurrentState pre.length true],
        threw := true } := by
  rw [update_reaches_switch m w w1 pre post t c hlist hpre hto hcond htrue]
  simp only [StateMachine.descriptor] at hstop
  simp [StateMachine.SwitchToState, Result.logged, Result.after, deref_index, hstop,
    index_index]

theorem update_throws_at_onStart (m : StateMachine T W) (w w1 : W)
    (pre post : List (TransitionContext T W)) (t : TransitionContext T W)
    (c : T → W → Bool × W) (f : T → W → W)
    (hlist : (m.descriptor m.mCurrentState).transitions = pre ++ t :: post)
    (hpre : passes m.mCurrentState pre w = some w1)
    (hto : t.to_ ≠ m.mCurrentState)
    (hcond : t.condition = some c) (htrue : (c m.mCurrentState w1).1 = true)
    (hstop : (m.descriptor m.mCurrentState).onStop = some f)
    (hstart : (m.descriptor t.to_).onStart = none) :
    m.Update w =
      { machine :=
          { mStateContexts := index (index m.mStateContexts m.mCurrentState) t.to_,
            mCurrentState := t.to_ },
        world := f m.mCurrentState (c m.mCurrentState w1).2,
        trace := falseEvents m.mCurrentState 0 pre ++
          [.condition m.mCurrentState pre.length true, .onStop m.mCurrentState],
        threw := true } := by
  rw [update_reaches_switch m w w1 pre post t c hlist hpre hto hcond htrue]
  simp only [StateMachine.descriptor] at hstop hstart
  simp [StateMachine.SwitchToState, Result.logged, Result.after, deref_index, hstop, hstart,
    index_index]

/-- C16 fails as stated: after `AddOnUpdate(A, nullptr)` on the machine started in `A`,
the update callback of `A` is the empty function object, and the call of `Update`
that invokes it is left by `std::bad_function_call` with no callback run, whereas
without the setter call the same tick returns. -/
theorem empty_action_counterexample :
    (demoEmpty.descriptor Demo.A).onUpdate = none ∧
    (demoEmpty.Update []).threw = true ∧
    (demoEmpty.Update []).trace = [] ∧
    ((StateMachine.ctor Demo.A : StateMachine Demo Log).Update []).threw = false :=
  ⟨rfl, rfl, rfl, rfl⟩

/-- C16 as amended.  A setter called with the empty action stores the empty action as
given (nothing replaces it by a no-op): after `AddOnStart`, `AddOnUpdate`, `AddOnStop`
with the empty action the respective callback of the state is empty, and after
`AddStateContext` the three callbacks are the three actions given, empty ones
included.  A call of `Update` that reaches an empty callback is left by
`std::bad_function_call` at that point: at an empty update callback, after the
conditions, with the current state unchanged; at an empty exit callback, before the
current state is assigned and before any callback has run; at an empty entry callback,
after the exit callback has run and the current state has been assigned. -/
theorem empty_action_throws (m : StateMachine T W) (state : T) :
    (((m.AddOnStart state none).descriptor state).onStart = none ∧
      ((m.AddOnUpdate state none).descriptor state).onUpdate = none ∧
      ((m.AddOnStop state none).descriptor state).onStop = none ∧
      ∀ a b c, ((m.AddStateContext state a b c).descriptor state).onStart = a ∧
        ((m.AddStateContext state a b c).descriptor state).onUpdate = b ∧
        ((m.AddStateContext state a b c).descriptor state).onStop = c) ∧
    (∀ w w1,
      passes m.mCurrentState (m.descriptor m.mCurrentState).transitions w = some w1 →
      (m.descriptor m.mCurrentState).onUpdate = none →
      (m.Update w).threw = true ∧ (m.Update w).world = w1 ∧
        (m.Update w).trace.filter Event.isCallback = [] ∧
        (m.Update w).machine.GetCurrentState = m.GetCurrentState) ∧
    (∀ w w1 pre post t c,
      (m.descriptor m.mCurrentState).transitions = pre ++ t :: post →
      passes m.mCurrentState pre w = some w1 → t.to_ ≠ m.mCurrentState →
      t.condition = some c → (c m.mCurrentState w1).1 = true →
      (m.descriptor m.mCurrentState).onStop = none →
      (m.Update w).threw = true ∧ (m.Update w).world = (c m.mCurrentState w1).2 ∧
        (m.Update w).trace.filter Event.isCallback = [] ∧
        (m.Update w).machine.GetCurrentState = m.GetCurrentState) ∧
    (∀ w w1 pre post t c f,
      (m.descriptor m.mCurrentState).transitions = pre ++ t :: post →
      passes m.mCurrentState pre w = some w1 → t.to_ ≠ m.mCurrentState →
      t.condition = some c → (c m.mCurrentState w1).1 = true →
      (m.descriptor m.mCurrentState).onStop = some f →
      (m.descriptor t.to_).onStart = none →
      (m.Update w).threw = true ∧
        (m.Update w).world = f m.mCurrentState (c m.mCurrentState w1).2 ∧
        (m.Update w).trace.filter Event.isCallback = [Event.onStop m.mCurrentState] ∧
        (m.Update w).machine.GetCurrentState = t.to_) := by
  refine ⟨⟨?_, ?_, ?_, ?_⟩, ?_, ?_, ?_⟩
  · rw [descriptor_AddOnStart, if_pos rfl]
  · rw [descriptor_AddOnUpdate, if_pos rfl]
  · rw [descriptor_AddOnStop, if_pos rfl]
  · intro a b c
    simp only [StateMachine.AddStateContext, descriptor_AddOnStop, descriptor_AddOnUpdate,
      descriptor_AddOnStart, if_true, and_self]
  · intro w w1 hpass hupd
    rw [update_throws_at_onUpdate m w w1 hpass hupd]
    exact ⟨rfl, rfl, falseEvents_filter_isCallback _ _ _, rfl⟩
  · intro w w1 pre post t c hlist hpre hto hcond htrue hstop
    rw [update_throws_at_onStop m w w1 pre post t c hlist hpre hto hcond htrue hstop]
    refine ⟨rfl, rfl, ?_, rfl⟩
    simp only [List.filter_append, falseEvents_filter_isCallback]
    rfl
  · intro w w1 pre post t c f hlist hpre hto hcond htrue hstop hstart
    rw [update_throws_at_onStart m w w1 pre post t c f hlist hpre hto hcond htrue hstop
      hstart]
    refine ⟨rfl, rfl, ?_, rfl⟩
    simp only [List.filter_append, falseEvents_filter_isCallback]
    rfl

/-- Witness of the amended C16: `AddOnUpdate(A, nullptr)` on the idle machine,
`AddOnStop(A, nullptr)` and `AddOnStart(B, nullptr)` on the machine whose tick fires
`A → B`; each tick throws at the empty callback. -/
theorem empty_action_throws_witness :
    ((demoIdle.AddOnUpdate Demo.A none).Update []).threw = true ∧
    ((demoIdle.AddOnUpdate Demo.A none).Update []).world = [(1, Demo.A), (2, Demo.A)] ∧
    ((demoFire.AddOnStop Demo.A none).Update []).threw = true ∧
    ((demoFire.AddOnStop Demo.A none).Update []).machine.GetCurrentState = Demo.A ∧
    ((demoFire.AddOnStart Demo.B none).Update []).threw = true ∧
    ((demoFire.AddOnStart Demo.B none).Update []).world =
      [(1, Demo.A), (2, Demo.A), (12, Demo.A)] ∧
    ((demoFire.AddOnStart Demo.B none).Update []).machine.GetCurrentState = Demo.B :=
  have hU := (empty_action_throws (demoIdle.AddOnUpdate Demo.A none) Demo.A).2.1 []
    [(1, Demo.A), (2, Demo.A)] rfl rfl
  have hX := (empty_action_throws (demoFire.AddOnStop Demo.A none) Demo.A).2.2.1 []
    [(1, Demo.A)] [⟨Demo.C, guard 1 false⟩] [] ⟨Demo.B, guard 2 true⟩
    (fun cur w => (true, w ++ [(2, cur)])) rfl rfl (by decide) rfl rfl rfl
  have hS := (empty_action_throws (demoFire.AddOnStart Demo.B none) Demo.B).2.2.2 []
    [(1, Demo.A)] [⟨Demo.C, guard 1 false⟩] [] ⟨Demo.B, guard 2 true⟩
    (fun cur w => (true, w ++ [(2, cur)])) (fun cur w => w ++ [(12, cur)])
    rfl rfl (by decide) rfl rfl rfl rfl
  ⟨hU.1, hU.2.1, hX.1, hX.2.2.2, hS.1, hS.2.1, hS.2.2.2⟩

end Setters

/-! ## The defensive skip and the frame of `Update`: claims C18 and C19 -/

section Frame

variable {T W : Type} [DecidableEq T]

theorem scan_eq_scanNoSkip (m : StateMachine T W) (ts : List (TransitionContext T W))
    (h : ∀ t ∈ ts, t.to_ ≠ m.mCurrentState) :
    ∀ (i : Nat) (w : W), m.scan ts i w = m.scanNoSkip ts i w := by
  induction ts with
  | nil => intro i w; rfl
  | cons t ts ih =>
    intro i w
    have hne : ¬ m.mCurrentState = t.to_ := fun e => h t (List.mem_cons_self _ _) e.symm
    have ih2 := ih (fun u hu => h u (List.mem_cons_of_mem _ hu))
    rw [StateMachine.scan, StateMachine.scanNoSkip, if_neg hne]
    cases hc : t.condition with
    | none => rfl
    | some c =>
      simp only
      by_cases hb : (c m.mCurrentState w).1 = false
      · rw [if_pos hb, if_pos hb, ih2]
      · rw [if_neg hb, if_neg hb]

/-- C18 as amended: with callbacks and conditions that do not re-enter the machine (the
callables of `StateMachine`).  On every machine obtained from the constructor by
registration calls and calls of `Update`, the test of line 107 is false for every
transition of the vector that `Update` scans, and `Update` gives the same result
(machine, world, trace of conditions and callbacks, exception or not) as its variant
without that test. -/
theorem update_skip_unreachable (startState : T) (m : StateMachine T W)
    (hreach : Reachable startState m) :
    (∀ t ∈ (m.descriptor m.mCurrentState).transitions, ¬ m.mCurrentState = t.to_) ∧
    ∀ w, m.Update w = m.UpdateNoSkip w := by
  have hno := noSelfTarget_of_reachable hreach m.mCurrentState
  refine ⟨fun t ht e => hno t ht e.symm, fun w => ?_⟩
  simp only [StateMachine.Update, StateMachine.UpdateNoSkip]
  apply scan_eq_scanNoSkip
  intro t ht
  rw [deref_index] at ht
  exact hno t ht

/-- Witness of the amended C18 on `demoFire`: both variants give the same trace, the one of a tick
that fires `A → B`. -/
theorem update_skip_unreachable_witness :
    demoFire.Update [] = demoFire.UpdateNoSkip [] ∧
    (demoFire.UpdateNoSkip []).trace =
      [Event.condition Demo.A 0 false, Event.condition Demo.A 1 true,
        Event.onStop Demo.A, Event.onStart Demo.B] :=
  ⟨(update_skip_unreachable Demo.A demoFire reachable_demoFire).2 [], rfl⟩

theorem switchToState_mStateContexts (m : StateMachine T W) (w : W)
    (t : TransitionContext T W) :
    (m.SwitchToState w t).machine.mStateContexts =
      index (index m.mStateContexts m.mCurrentState)
        (m.SwitchToState w t).machine.mCurrentState := by
  unfold StateMachine.SwitchToState
  simp only
  split
  · simp only [index_index]
  · split <;> rfl

theorem scan_mStateContexts (m : StateMachine T W)
    (hm : index m.mStateContexts m.mCurrentState = m.mStateContexts)
    (ts : List (TransitionContext T W)) :
    ∀ (i : Nat) (w : W),
      (m.scan ts i w).machine.mStateContexts =
        index m.mStateContexts (m.scan ts i w).machine.mCurrentState := by
  induction ts with
  | nil =>
    intro i w
    unfold StateMachine.scan
    simp only
    split <;> simp only [hm]
  | cons t ts ih =>
    intro i w
    by_cases hself : m.mCurrentState = t.to_
    · rw [scan_cons_skip m t ts i w hself]
      exact ih _ _
    · cases hc : t.condition with
      | none =>
        rw [StateMachine.scan, if_neg hself]
        simp only [hc]
        exact hm.symm
      | some c =>
        by_cases hb : (c m.mCurrentState w).1 = false
        · rw [scan_cons_false m t ts i w c hself hc hb]
          exact ih _ _
        · have hb2 : (c m.mCurrentState w).1 = true := by simpa using hb
          rw [scan_cons_true m t ts i w c hself hc hb2]
          have h := switchToState_mStateContexts m (c m.mCurrentState w).2 t
          rw [hm] at h
          exact h

theorem update_mStateContexts (m : StateMachine T W) (w : W) :
    (m.Update w).machine.mStateContexts =
      index (index m.mStateContexts m.mCurrentState) (m.Update w).machine.mCurrentState :=
  scan_mStateContexts
    ({ m with mStateContexts := index m.mStateContexts m.mCurrentState } : StateMachine T W)
    (index_index _ _) _ 0 w

/-- C19, `Update` never changes the configuration.  After a call of `Update`, in any
world and whether or not it throws, every state that had a descriptor has the same
descriptor (the same three callbacks and the same vector); a state that had none
either still has none or is the old or the new current state and has the
default-constructed descriptor (no-op callbacks, empty vector); hence the descriptor
found for any state is the one found before the call. -/
theorem update_preserves_configuration (m : StateMachine T W) (w : W) :
    (∀ s c, m.mStateContexts s = some c →
      (m.Update w).machine.mStateContexts s = some c) ∧
    (∀ s, m.mStateContexts s = none →
      (m.Update w).machine.mStateContexts s = none ∨
      ((s = m.GetCurrentState ∨ s = (m.Update w).machine.GetCurrentState) ∧
        (m.Update w).machine.mStateContexts s =
          some { onStart := some (fun _ x => x), onUpdate := some (fun _ x => x),
                 onStop := some (fun _ x => x), transitions := [] })) ∧
    (∀ s, (m.Update w).machine.descriptor s = m.descriptor s) := by
  refine ⟨?_, ?_, descriptor_Update m w⟩
  · intro s c hs
    rcases update_grows m w s with h | ⟨hn, _⟩
    · rw [h, hs]
    · rw [hs] at hn; cases hn
  · intro s hs
    rw [update_mStateContexts]
    simp only [StateMachine.GetCurrentState]
    by_cases h2 : s = (m.Update w).machine.mCurrentState
    · right
      refine ⟨Or.inr h2, ?_⟩
      rw [h2, index_apply_self, deref_index, ← h2]
      simp only [deref, hs]
      rfl
    · rw [index_apply_ne _ h2]
      by_cases h1 : s = m.mCurrentState
      · right
        refine ⟨Or.inl h1, ?_⟩
        rw [h1, index_apply_self, ← h1]
        simp only [deref, hs]
        rfl
      · left
        rw [index_apply_ne _ h1, hs]

end Frame

/-! ## The transition list as a function of the calls: claim C20 -/

section Reference

variable {T W : Type} [DecidableEq T]

theorem exists_target_firstPerTarget (b : T) (l : List (TransitionContext T W)) :
    (∃ y ∈ firstPerTarget l, y.to_ = b) ↔ ∃ y ∈ l, y.to_ = b := by
  induction l with
  | nil => simp [firstPerTarget]
  | cons t ts ih =>
    constructor
    · rintro ⟨y, hy, hb⟩
      rw [firstPerTarget, List.mem_cons] at hy
      rcases hy with hy | hy
      · exact ⟨y, by rw [hy]; exact List.mem_cons_self _ _, hb⟩
      · obtain ⟨z, hz, hzb⟩ := ih.mp ⟨y, (List.mem_filter.mp hy).1, hb⟩
        exact ⟨z, List.mem_cons_of_mem _ hz, hzb⟩
    · rintro ⟨y, hy, hb⟩
      by_cases hbt : t.to_ = b
      · exact ⟨t, by rw [firstPerTarget]; exact List.mem_cons_self _ _, hbt⟩
      · rcases List.mem_cons.mp hy with hy | hy
        · rw [hy] at hb; exact absurd hb hbt
        · obtain ⟨z, hz, hzb⟩ := ih.mpr ⟨y, hy, hb⟩
          refine ⟨z, ?_, hzb⟩
          rw [firstPerTarget]
          apply List.mem_cons_of_mem
          apply List.mem_filter.mpr
          refine ⟨hz, ?_⟩
          simp only [decide_eq_true_eq]
          rw [hzb]
          exact fun e => hbt e.symm

theorem transitionExists_firstPerTarget (b : T) (l : List (TransitionContext T W)) :
    TransitionExists b (firstPerTarget l) = TransitionExists b l := by
  rw [Bool.eq_iff_iff, transitionExists_iff, transitionExists_iff]
  exact exists_target_firstPerTarget b l

theorem firstPerTarget_append_singleton (l : List (TransitionContext T W))
    (x : TransitionContext T W) :
    firstPerTarget (l ++ [x]) =
      if TransitionExists x.to_ l = true then firstPerTarget l else firstPerTarget l ++ [x] := by
  induction l with
  | nil => simp [firstPerTarget, TransitionExists]
  | cons t ts ih =>
    rw [List.cons_append, firstPerTarget, ih, firstPerTarget, TransitionExists]
    by_cases htx : t.to_ = x.to_
    · rw [if_pos htx]
      simp only [if_true]
      by_cases hte : TransitionExists x.to_ ts = true
      · rw [if_pos hte]
      · rw [if_neg hte, List.filter_append]
        simp [htx]
    · rw [if_neg htx]
      by_cases hte : TransitionExists x.to_ ts = true
      · rw [if_pos hte, if_pos hte]
      · have hxt : ¬ x.to_ = t.to_ := fun e => htx e.symm
        rw [if_neg hte, if_neg hte, List.filter_append]
        simp [hxt]

theorem requested_append (A : T) (calls : List (Registration T W)) (r : Registration T W) :
    requested A (calls ++ [r]) = requested A calls ++ requested A [r] := by
  induction calls with
  | nil => rfl
  | cons c cs ih =>
    cases c with
    | AddTransition frm to_ cond =>
      rw [List.cons_append, requested, requested, ih]
      by_cases h : frm = A
      · rw [if_pos h, if_pos h, List.cons_append]
      · rw [if_neg h, if_neg h]
    | AddOnStart _ _ => exact ih
    | AddOnUpdate _ _ => exact ih
    | AddOnStop _ _ => exact ih
    | AddStateContext _ _ _ _ => exact ih

theorem requested_of_not_AddTransition (A : T) (r : Registration T W)
    (hr : ∀ frm to_ c, r ≠ Registration.AddTransition frm to_ c) :
    requested A [r] = [] := by
  cases r with
  | AddTransition frm to_ c => exact absurd rfl (hr frm to_ c)
  | AddOnStart _ _ => rfl
  | AddOnUpdate _ _ => rfl
  | AddOnStop _ _ => rfl
  | AddStateContext _ _ _ _ => rfl

theorem requested_filter_addsFrom (A : T) (calls : List (Registration T W)) :
    requested A (calls.filter (Registration.addsFrom A)) = requested A calls := by
  induction calls with
  | nil => rfl
  | cons c cs ih =>
    cases c with
    | AddTransition frm to_ cond =>
      by_cases h : frm = A
      · simp only [List.filter_cons, Registration.addsFrom, h, decide_True, if_true, requested,
          ih]
      · simp only [List.filter_cons, Registration.addsFrom, h, decide_False, requested,
          if_false, ih, Bool.false_eq_true]
    | AddOnStart _ _ => exact ih
    | AddOnUpdate _ _ => exact ih
    | AddOnStop _ _ => exact ih
    | AddStateContext _ _ _ _ => exact ih

theorem transitions_eq_reference (s A : T) (calls : List (Registration T W)) :
    ((calls.foldl StateMachine.register
        (StateMachine.ctor s : StateMachine T W)).descriptor A).transitions =
      referenceTransitions A calls := by
  induction calls using List.reverseRecOn with
  | nil => rfl
  | append_singleton l r ih =>
    rw [List.foldl_append, List.foldl_cons, List.foldl_nil]
    unfold referenceTransitions at ih ⊢
    rw [requested_append, List.filter_append]
    by_cases hr : ∀ frm to_ c, r ≠ Registration.AddTransition frm to_ c
    · rw [transitions_register_of_not_AddTransition _ r hr A, ih,
        requested_of_not_AddTransition A r hr]
      simp
    · push_neg at hr
      obtain ⟨frm, to_, c, rfl⟩ := hr
      simp only [StateMachine.register, descriptor_AddTransition]
      by_cases hA : frm = A
      · subst hA
        by_cases hto : frm = to_
        · subst hto
          simp [requested, ih]
        · have hto2 : ¬ to_ = frm := fun e => hto e.symm
          have hfilter : List.filter (fun t : TransitionContext T W => decide (t.to_ ≠ frm))
              (requested frm [Registration.AddTransition frm to_ c]) =
              [{ to_ := to_, condition := c }] := by
            simp [requested, hto2]
          rw [hfilter, firstPerTarget_append_singleton, ih, transitionExists_firstPerTarget]
          by_cases hte : TransitionExists to_
              (List.filter (fun t : TransitionContext T W => decide (t.to_ ≠ frm))
                (requested frm l)) = true
          · rw [if_pos hte, if_pos (Or.inr (Or.inl hte)), ih]
          · rw [if_neg hte, if_neg (by push_neg; exact ⟨hto, hte, rfl⟩)]
      · have hA2 : A ≠ frm := fun e => hA e.symm
        rw [if_pos (Or.inr (Or.inr hA2)), ih]
        simp [requested, hA]

/-- C20, reference definition of a transition list.  After any sequence of registration
calls on the machine just constructed, the vector of state `A` is the list of the
transitions requested by the calls `AddTransition(A, to, cond)`, in call order, without
those with `to == A`, and with, for each target, only the first one (with its
condition).  Calls with another source and the callback setters have no part in it: the
calls `AddTransition(A, _, _)` alone give the same vector. -/
theorem transitions_reference (s A : T) (calls : List (Registration T W)) :
    ((calls.foldl StateMachine.register
        (StateMachine.ctor s : StateMachine T W)).descriptor A).transitions =
      referenceTransitions A calls ∧
    (((calls.filter (Registration.addsFrom A)).foldl StateMachine.register
        (StateMachine.ctor s : StateMachine T W)).descriptor A).transitions =
      ((calls.foldl StateMachine.register
        (StateMachine.ctor s : StateMachine T W)).descriptor A).transitions := by
  refine ⟨transitions_eq_reference s A calls, ?_⟩
  rw [transitions_eq_reference, transitions_eq_reference]
  unfold referenceTransitions
  rw [requested_filter_addsFrom]

end Reference

/-! ## Closures that re-enter: where C13 and C18 fail as stated -/

/-- C13 fails as stated when a callback re-enters.  `demoReenter` is built by public
calls only (`AddOnStart(B, _)`, `AddTransition(A, B, _)`, `AddTransition(B, A, _)`),
and no vector holds a self-target; the entry callback of `B` calls `Update()`.  One
call of `Update` from `A` fires `A → B` (exit callback of `A`, entry callback of `B`),
the nested call fires `B → A`, and the outer call returns with current state `A`: the
state after the tick in which a transition fired equals the state before it. -/
theorem no_self_transition_counterexample :
    demoReenter.mCurrentState = Demo.A ∧
    ((reDeref demoReenter.mStateContexts Demo.A).transitions.map (fun t => t.to_) =
        [Demo.B] ∧
      (reDeref demoReenter.mStateContexts Demo.B).transitions.map (fun t => t.to_) =
        [Demo.A]) ∧
    (demoReenter.Update 2 []).map ReResult.observed =
      some (Demo.A, [(20, Demo.B)],
        [Event.condition Demo.A 0 true, Event.onStop Demo.A, Event.onStart Demo.B,
          Event.condition Demo.B 0 true, Event.onStop Demo.B, Event.onStart Demo.A],
        false) :=
  ⟨rfl, ⟨rfl, rfl⟩, rfl⟩

/-- C18 fails as stated when a condition re-enters.  `demoGuardReenters` is built by
public calls only; the condition of `A → C` calls `Update()` on its first evaluation
and returns false.  In one call of `Update` from `A` the nested call fires `A → B`;
back in the outer loop the next transition is `A → B` and the current state is `B`, so
the test of line 107 holds and the transition is skipped, and the update callback of
`B` (tag 21) runs.  The variant without the test evaluates the condition of `A → B`
(tag 2, seeing `B`) and fires again: the two results differ. -/
theorem update_skip_counterexample :
    (demoGuardReenters.Update 2 []).map ReResult.observed =
      some (Demo.B, [(1, Demo.A), (1, Demo.A), (2, Demo.A), (21, Demo.B)],
        [Event.condition Demo.A 0 false, Event.condition Demo.A 0 false,
          Event.condition Demo.A 1 true, Event.onStop Demo.A, Event.onStart Demo.B,
          Event.onUpdate Demo.B],
        false) ∧
    (demoGuardReenters.UpdateNoSkip 2 []).map ReResult.observed =
      some (Demo.B, [(1, Demo.A), (1, Demo.A), (2, Demo.A), (2, Demo.B)],
        [Event.condition Demo.A 0 false, Event.condition Demo.A 0 false,
          Event.condition Demo.A 1 true, Event.onStop Demo.A, Event.onStart Demo.B,
          Event.condition Demo.B 1 true, Event.onStop Demo.B, Event.onStart Demo.B],
        false) ∧
    (demoGuardReenters.Update 2 []).map ReResult.observed ≠
      (demoGuardReenters.UpdateNoSkip 2 []).map ReResult.observed :=
  ⟨rfl, rfl, by decide⟩

end FSM
